import Mathlib

/-!
# NarrativeIQ — verification of the credit-metering / diff / graph spec

Shallow embedding of the NarrativeIQ backend (Python), covering:

* the word-level diff engine (`difflib.SequenceMatcher`-based `compute_diff`,
  both the legacy single-file variant in `app/app.py` and the layered variant
  in `app/services/diff.py`);
* the credit ledger protocol as implemented by the Flask routes in
  `app/app.py` and the FastAPI routers in `app/routers/`;
* the graph assembly pipeline of `app/services/graph.py`;
* persona resolution (`app/app.py` `PERSONAS`, `app/services/llm.py`
  `PERSONA_PROMPTS`, `app/models/schemas.py` `PersonaEnum`).

External collaborators (the LLM, the stores) are modelled as explicit
parameters carrying their observed outcome, so every route model is a pure
function of its inputs and of the collaborator outcomes.
-/

namespace NarrativeIQ

/-! ## Python string primitives

`str.split()` with no separator splits on runs of whitespace and never
produces empty tokens; `" ".join(ws)` joins with single spaces.  We restrict
the whitespace class to the six ASCII whitespace characters, which is what
all inputs in the repository exercise. -/

/-- The ASCII whitespace characters recognised by Python `str.split()`. -/
def isPySpace (c : Char) : Bool :=
  c = ' ' || c = '\t' || c = '\n' || c = '\r' || c = '\x0b' || c = '\x0c'

/-- Helper for `pySplit`: `acc` is the current (reversed) in-progress token. -/
def pySplitAux : List Char → List Char → List String
  | [], [] => []
  | [], acc => [String.mk acc.reverse]
  | c :: cs, acc =>
      if isPySpace c then
        match acc with
        | [] => pySplitAux cs []
        | _ => String.mk acc.reverse :: pySplitAux cs []
      else
        pySplitAux cs (c :: acc)

/-- Python `s.split()` (no separator): tokens are maximal runs of
non-whitespace characters; no empty tokens are produced. -/
def pySplit (s : String) : List String :=
  pySplitAux s.toList []

/-- Python `" ".join(ws)`: words joined by single spaces. -/
def joinWords : List String → String
  | [] => ""
  | [w] => w
  | w :: ws => w ++ " " ++ joinWords ws

/-! ## `difflib.SequenceMatcher` (CPython), embedded

Both call sites construct the matcher with `isjunk=None`, so the junk set
`bjunk` is always empty and the two junk-extension loops of
`find_longest_match` never execute; the two non-junk extension loops have a
vacuously true `not isbjunk(...)` test.  The only difference between the two
call sites is `autojunk`: the legacy `app.py` uses the default `True`, the
layered `services/diff.py` passes `False`. -/

/-- The map `b2j[x]`: ascending list of indices `j` with `b[j] = x`, after the
`__chain_b` autojunk purge: when `autojunk` is on and `len(b) >= 200`,
"popular" elements (appearing more than `len(b) // 100 + 1` times) are
removed from the map entirely. -/
def b2j (autojunk : Bool) (b : List String) (x : String) : List Nat :=
  let occ := (List.range b.length).filter (fun j => decide (b.getD j "" = x))
  if autojunk ∧ 200 ≤ b.length ∧ b.length / 100 + 1 < occ.length then []
  else occ

/-- A candidate best match: start in `a`, start in `b`, size. -/
structure Best where
  i : Nat
  j : Nat
  size : Nat
deriving Repr, DecidableEq

/-- The inner loop of `find_longest_match` over the occurrence indices `j`
of `a[i]` in `b` (already filtered to `blo ≤ j < bhi`, ascending):
`k = j2len.get(j-1, 0) + 1`, `newj2len[j] = k`, and the best match is
updated whenever `k > bestsize`. -/
def innerLoop (i : Nat) (j2len : Nat → Nat) :
    List Nat → (Nat → Nat) → Best → (Nat → Nat) × Best
  | [], newj2len, best => (newj2len, best)
  | j :: js, newj2len, best =>
      let k := (if j = 0 then 0 else j2len (j - 1)) + 1
      let newj2len' := fun j' => if j' = j then k else newj2len j'
      let best' := if best.size < k then ⟨i + 1 - k, j + 1 - k, k⟩ else best
      innerLoop i j2len js newj2len' best'

/-- The outer dynamic-programming loop of `find_longest_match` over
`i ∈ [alo, ahi)`; `j2len` is rebuilt from scratch on each row. -/
def dpLoop (autojunk : Bool) (a b : List String) (blo bhi : Nat) :
    List Nat → (Nat → Nat) → Best → Best
  | [], _, best => best
  | i :: is, j2len, best =>
      let js := (b2j autojunk b (a.getD i "")).filter (fun j => blo ≤ j ∧ j < bhi)
      let (newj2len, best') := innerLoop i j2len js (fun _ => 0) best
      dpLoop autojunk a b blo bhi is newj2len best'

/-- First extension loop: extend the best match backwards while the
preceding elements are equal (the `not isbjunk` test is vacuous).  The
loop decrements `besti`, so recursion is structural on `bi`; the `bi = 0`
base returns unchanged exactly as the loop guard `besti > alo` does. -/
def extendBack (a b : List String) (alo blo : Nat) : Nat → Nat → Nat →
    Nat × Nat × Nat
  | 0, bj, k => (0, bj, k)
  | bi + 1, bj, k =>
      if alo < bi + 1 ∧ blo < bj ∧ a.getD bi "" = b.getD (bj - 1) "" then
        extendBack a b alo blo bi (bj - 1) (k + 1)
      else (bi + 1, bj, k)

/-- Second extension loop: extend the best match forwards while the
following elements are equal.  The loop's iteration count is exactly
`ahi - (besti + bestsize)`, used here as structural fuel: fuel `0` means
`besti + bestsize ≥ ahi`, where the loop guard fails anyway. -/
def extendFwdAux (a b : List String) (ahi bhi bi bj : Nat) : Nat → Nat → Nat
  | 0, k => k
  | fuel + 1, k =>
      if bi + k < ahi ∧ bj + k < bhi ∧ a.getD (bi + k) "" = b.getD (bj + k) "" then
        extendFwdAux a b ahi bhi bi bj fuel (k + 1)
      else k

def extendFwd (a b : List String) (ahi bhi : Nat) (bi bj k : Nat) : Nat :=
  extendFwdAux a b ahi bhi bi bj (ahi - (bi + k)) k

/-- Embeds `SequenceMatcher.find_longest_match(alo, ahi, blo, bhi)`. -/
def findLongestMatch (autojunk : Bool) (a b : List String)
    (alo ahi blo bhi : Nat) : Best :=
  let best := dpLoop autojunk a b blo bhi (List.range' alo (ahi - alo)) (fun _ => 0) ⟨alo, blo, 0⟩
  let (bi, bj, k) := extendBack a b alo blo best.i best.j best.size
  ⟨bi, bj, extendFwd a b ahi bhi bi bj k⟩

/-! ### Soundness of `find_longest_match`

The returned triple always denotes an actual matching window inside the
requested ranges (or is the trivial `(alo, blo, 0)`).  This is needed both
for the termination of `get_matching_blocks` and for the diff round-trip
properties. -/

/-- Matching window `window a b bi bj k`: the `k` elements of `a` starting at `bi` agree
with the `k` elements of `b` starting at `bj`. -/
def window (a b : List String) (bi bj k : Nat) : Prop :=
  ∀ t, t < k → a.getD (bi + t) "" = b.getD (bj + t) ""

/-- A valid candidate best match for the range `[alo, ahi) × [blo, bhi)`:
either the trivial empty match at the range origin, or a genuine matching
window inside the range. -/
def BestValid (a b : List String) (alo ahi blo bhi : Nat) (m : Best) : Prop :=
  (m.size = 0 ∧ m.i = alo ∧ m.j = blo) ∨
  (1 ≤ m.size ∧ alo ≤ m.i ∧ m.i + m.size ≤ ahi ∧ blo ≤ m.j ∧ m.j + m.size ≤ bhi ∧
    window a b m.i m.j m.size)

/-- Validity of a `j2len` map whose entries denote matching windows ending
strictly before row `i`: `f j = k ≠ 0` means the `k` elements ending at
`a[i-1]` and `b[j]` agree and stay inside the left bounds. -/
def PrevValid (a b : List String) (alo blo bhi i : Nat) (f : Nat → Nat) : Prop :=
  ∀ j, f j = 0 ∨
    (1 ≤ f j ∧ alo + f j ≤ i ∧ blo + f j ≤ j + 1 ∧ j < bhi ∧
      window a b (i - f j) (j + 1 - f j) (f j))

lemma window_zero (a b : List String) (bi bj : Nat) : window a b bi bj 0 := by
  intro t ht; omega

lemma window_snoc {a b : List String} {bi bj k : Nat}
    (hw : window a b bi bj k) (he : a.getD (bi + k) "" = b.getD (bj + k) "") :
    window a b bi bj (k + 1) := by
  intro t ht
  rcases Nat.lt_succ_iff_lt_or_eq.mp ht with h | h
  · exact hw t h
  · subst h; exact he

lemma window_cons {a b : List String} {bi bj k : Nat}
    (hbi : 1 ≤ bi) (hbj : 1 ≤ bj)
    (he : a.getD (bi - 1) "" = b.getD (bj - 1) "")
    (hw : window a b bi bj k) :
    window a b (bi - 1) (bj - 1) (k + 1) := by
  intro t ht
  rcases Nat.eq_zero_or_pos t with h | h
  · subst h; simpa using he
  · have h1 : bi - 1 + t = bi + (t - 1) := by omega
    have h2 : bj - 1 + t = bj + (t - 1) := by omega
    rw [h1, h2]; exact hw (t - 1) (by omega)

lemma innerLoop_valid (a b : List String) (alo ahi blo bhi i : Nat)
    (hia : alo ≤ i) (hi : i < ahi) (f : Nat → Nat)
    (hf : PrevValid a b alo blo bhi i f) :
    ∀ (js : List Nat) (g : Nat → Nat) (best : Best),
      (∀ j ∈ js, blo ≤ j ∧ j < bhi ∧ b.getD j "" = a.getD i "") →
      PrevValid a b alo blo bhi (i + 1) g →
      BestValid a b alo ahi blo bhi best →
      PrevValid a b alo blo bhi (i + 1) (innerLoop i f js g best).1 ∧
      BestValid a b alo ahi blo bhi (innerLoop i f js g best).2 := by
  intro js
  induction js with
  | nil => intro g best _ hg hb; exact ⟨hg, hb⟩
  | cons j js ih =>
    intro g best hjs hg hb
    obtain ⟨hjb, hjh, hjeq⟩ := hjs j (List.mem_cons_self _ _)
    -- the freshly computed chain length `k` denotes a window ending at row i
    have hwin1 : window a b i j 1 := by
      intro t ht
      have ht0 : t = 0 := by omega
      subst ht0
      simpa using hjeq.symm
    have hkvalid : ∀ kp : Nat, (if j = 0 then 0 else f (j - 1)) = kp →
        1 ≤ kp + 1 ∧ alo + (kp + 1) ≤ i + 1 ∧ blo + (kp + 1) ≤ j + 1 ∧
          window a b (i + 1 - (kp + 1)) (j + 1 - (kp + 1)) (kp + 1) := by
      intro kp hkp
      by_cases hj0 : j = 0
      · rw [if_pos hj0] at hkp
        refine ⟨by omega, by omega, by omega, ?_⟩
        have e1 : i + 1 - (kp + 1) = i := by omega
        have e2 : j + 1 - (kp + 1) = j := by omega
        rw [e1, e2, ← hkp]; exact hwin1
      · rw [if_neg hj0] at hkp
        rcases Nat.eq_zero_or_pos kp with hkp0 | hkp1
        · -- previous chain empty: fresh window of size 1
          refine ⟨by omega, by omega, by omega, ?_⟩
          have e1 : i + 1 - (kp + 1) = i := by omega
          have e2 : j + 1 - (kp + 1) = j := by omega
          rw [e1, e2, hkp0]; exact hwin1
        · -- extend the previous chain by the new equal pair
          rcases hf (j - 1) with hzero | ⟨h1, h2, h3, _, hw⟩
          · omega
          · rw [hkp] at h1 h2 h3 hw
            refine ⟨by omega, by omega, by omega, ?_⟩
            have hsnoc := @window_snoc _ _ (i - kp) (j - 1 + 1 - kp) kp hw ?_
            · have e1 : i + 1 - (kp + 1) = i - kp := by omega
              have e2 : j + 1 - (kp + 1) = j - 1 + 1 - kp := by omega
              rw [e1, e2]
              exact hsnoc
            · have e1 : i - kp + kp = i := by omega
              have e2 : j - 1 + 1 - kp + kp = j := by omega
              rw [e1, e2]; exact hjeq.symm
    obtain ⟨hk1, hk2, hk3, hkw⟩ := hkvalid _ rfl
    simp only [innerLoop]
    apply ih
    · intro x hx; exact hjs x (List.mem_cons_of_mem _ hx)
    · -- updated map keeps the row invariant
      intro j'
      by_cases hj' : j' = j
      · subst hj'
        right
        simp only [if_pos rfl]
        exact ⟨hk1, hk2, hk3, hjh, hkw⟩
      · simpa only [if_neg hj'] using hg j'
    · -- updated best keeps validity
      by_cases hlt : best.size < (if j = 0 then 0 else f (j - 1)) + 1
      · simp only [if_pos hlt]
        right
        refine ⟨hk1, ?_, ?_, ?_, ?_, hkw⟩
        · show alo ≤ i + 1 - ((if j = 0 then 0 else f (j - 1)) + 1); omega
        · show i + 1 - ((if j = 0 then 0 else f (j - 1)) + 1) +
            ((if j = 0 then 0 else f (j - 1)) + 1) ≤ ahi
          omega
        · show blo ≤ j + 1 - ((if j = 0 then 0 else f (j - 1)) + 1); omega
        · show j + 1 - ((if j = 0 then 0 else f (j - 1)) + 1) +
            ((if j = 0 then 0 else f (j - 1)) + 1) ≤ bhi
          omega
      · simpa only [if_neg hlt] using hb

lemma b2j_mem {autojunk : Bool} {b : List String} {x : String} {j : Nat}
    (h : j ∈ b2j autojunk b x) : b.getD j "" = x := by
  simp only [b2j] at h
  split at h
  · simp at h
  · exact of_decide_eq_true (List.mem_filter.mp h).2

lemma dpLoop_valid (autojunk : Bool) (a b : List String) (alo ahi blo bhi : Nat) :
    ∀ (n i : Nat) (f : Nat → Nat) (best : Best),
      alo ≤ i → (n ≠ 0 → i + n ≤ ahi) →
      PrevValid a b alo blo bhi i f →
      BestValid a b alo ahi blo bhi best →
      BestValid a b alo ahi blo bhi
        (dpLoop autojunk a b blo bhi (List.range' i n) f best) := by
  intro n
  induction n with
  | zero => intro i f best _ _ _ hb; simpa [dpLoop] using hb
  | succ n ih =>
    intro i f best hia hn hf hb
    rw [List.range'_succ]
    simp only [dpLoop]
    have hi : i < ahi := by omega
    have hmem : ∀ j ∈ (b2j autojunk b (a.getD i "")).filter
        (fun j => decide (blo ≤ j ∧ j < bhi)),
        blo ≤ j ∧ j < bhi ∧ b.getD j "" = a.getD i "" := by
      intro j hj
      have h1 := List.of_mem_filter hj
      have h2 := b2j_mem (List.mem_of_mem_filter hj)
      have h3 := of_decide_eq_true h1
      exact ⟨h3.1, h3.2, h2⟩
    have hzero : PrevValid a b alo blo bhi (i + 1) (fun _ => 0) := by
      intro j; left; rfl
    obtain ⟨hmap, hbest⟩ := innerLoop_valid a b alo ahi blo bhi i hia hi f hf
      _ (fun _ => 0) best hmem hzero hb
    exact ih (i + 1) _ _ (by omega) (by omega) hmap hbest

lemma extendBack_valid (a b : List String) (alo ahi blo bhi : Nat) :
    ∀ (bi bj k : Nat),
      BestValid a b alo ahi blo bhi ⟨bi, bj, k⟩ →
      BestValid a b alo ahi blo bhi
        ⟨(extendBack a b alo blo bi bj k).1, (extendBack a b alo blo bi bj k).2.1,
          (extendBack a b alo blo bi bj k).2.2⟩ := by
  intro bi
  induction bi with
  | zero =>
    intro bj k hv
    simpa only [extendBack] using hv
  | succ bi ih =>
    intro bj k hv
    rw [extendBack]
    by_cases h : alo < bi + 1 ∧ blo < bj ∧ a.getD bi "" = b.getD (bj - 1) ""
    · rw [if_pos h]
      apply ih
      obtain ⟨h1, h2, h3⟩ := h
      rcases hv with ⟨hk, hbi, hbj⟩ | ⟨hk, hbi, hik, hbj, hjk, hw⟩
      · simp only at hk hbi hbj; omega
      · right
        simp only at hk hbi hik hbj hjk
        have hwc := @window_cons _ _ (bi + 1) bj k
          (by omega) (by omega) (by simpa using h3) hw
        refine ⟨?_, ?_, ?_, ?_, ?_, ?_⟩
        · show 1 ≤ k + 1; omega
        · show alo ≤ bi; omega
        · show bi + (k + 1) ≤ ahi; omega
        · show blo ≤ bj - 1; omega
        · show bj - 1 + (k + 1) ≤ bhi; omega
        · show window a b bi (bj - 1) (k + 1)
          simpa using hwc
    · rw [if_neg h]
      exact hv

lemma extendFwd_valid (a b : List String) (alo ahi blo bhi : Nat) :
    ∀ (bi bj k : Nat),
      BestValid a b alo ahi blo bhi ⟨bi, bj, k⟩ →
      BestValid a b alo ahi blo bhi ⟨bi, bj, extendFwd a b ahi bhi bi bj k⟩ := by
  have aux : ∀ (fuel bi bj k : Nat),
      BestValid a b alo ahi blo bhi ⟨bi, bj, k⟩ →
      BestValid a b alo ahi blo bhi
        ⟨bi, bj, extendFwdAux a b ahi bhi bi bj fuel k⟩ := by
    intro fuel
    induction fuel with
    | zero =>
      intro bi bj k hv
      simpa only [extendFwdAux] using hv
    | succ fuel ih =>
      intro bi bj k hv
      rw [extendFwdAux]
      by_cases h : bi + k < ahi ∧ bj + k < bhi ∧ a.getD (bi + k) "" = b.getD (bj + k) ""
      · rw [if_pos h]
        apply ih
        obtain ⟨h1, h2, h3⟩ := h
        rcases hv with ⟨hk, hbi, hbj⟩ | ⟨hk, hbi, hik, hbj, hjk, hw⟩
        · right
          simp only at hk hbi hbj
          subst hk
          refine ⟨?_, ?_, ?_, ?_, ?_, ?_⟩
          · show 1 ≤ 0 + 1; omega
          · show alo ≤ bi; omega
          · show bi + (0 + 1) ≤ ahi; omega
          · show blo ≤ bj; omega
          · show bj + (0 + 1) ≤ bhi; omega
          · exact window_snoc (window_zero a b bi bj) h3
        · right
          simp only at hk hbi hik hbj hjk hw
          refine ⟨?_, ?_, ?_, ?_, ?_, ?_⟩
          · show 1 ≤ k + 1; omega
          · show alo ≤ bi; omega
          · show bi + (k + 1) ≤ ahi; omega
          · show blo ≤ bj; omega
          · show bj + (k + 1) ≤ bhi; omega
          · exact window_snoc hw h3
      · rw [if_neg h]
        exact hv
  intro bi bj k hv
  exact aux (ahi - (bi + k)) bi bj k hv

/-- Soundness of the embedded `find_longest_match`. -/
lemma findLongestMatch_valid (autojunk : Bool) (a b : List String)
    (alo ahi blo bhi : Nat) :
    BestValid a b alo ahi blo bhi (findLongestMatch autojunk a b alo ahi blo bhi) := by
  have hdp : BestValid a b alo ahi blo bhi
      (dpLoop autojunk a b blo bhi (List.range' alo (ahi - alo)) (fun _ => 0)
        ⟨alo, blo, 0⟩) := by
    apply dpLoop_valid autojunk a b alo ahi blo bhi (ahi - alo) alo
      (fun _ => 0) ⟨alo, blo, 0⟩ (le_refl _) (by omega)
    · intro j; left; rfl
    · left; exact ⟨rfl, rfl, rfl⟩
  have hbk := extendBack_valid a b alo ahi blo bhi _ _ _ hdp
  have hfw := extendFwd_valid a b alo ahi blo bhi _ _ _ hbk
  simpa [findLongestMatch] using hfw

/-! ## `get_matching_blocks`, `get_opcodes`, and the two `compute_diff`s -/

/-- The queue-driven traversal of `get_matching_blocks`: the Python version
pushes independent subranges on a queue and sorts the collected blocks at
the end; recursing left–middle–right yields that sorted list directly.
The fuel is the size `ahi - alo` of the `a`-side range, which strictly
shrinks at every recursive call (`findLongestMatch_valid`), so with the
wrapper's initial fuel the `0` cut-off is never reached on a nonempty
range. -/
def matchingBlocksAux (autojunk : Bool) (a b : List String) :
    Nat → Nat → Nat → Nat → Nat → List (Nat × Nat × Nat)
  | 0, _, _, _, _ => []
  | fuel + 1, alo, ahi, blo, bhi =>
    let m := findLongestMatch autojunk a b alo ahi blo bhi
    if m.size = 0 then []
    else
      (if alo < m.i ∧ blo < m.j then
        matchingBlocksAux autojunk a b fuel alo m.i blo m.j else [])
      ++ (m.i, m.j, m.size) ::
      (if m.i + m.size < ahi ∧ m.j + m.size < bhi then
        matchingBlocksAux autojunk a b fuel (m.i + m.size) ahi (m.j + m.size) bhi else [])

def matchingBlocks (autojunk : Bool) (a b : List String)
    (alo ahi blo bhi : Nat) : List (Nat × Nat × Nat) :=
  matchingBlocksAux autojunk a b (ahi - alo) alo ahi blo bhi

/-- Python list slice `l[i:j]`. -/
def slice (l : List α) (i j : Nat) : List α := (l.drop i).take (j - i)

/-- The adjacent-block merging loop at the end of `get_matching_blocks`:
`(i1, j1, k1)` is the pending block (initially the dummy `(0, 0, 0)`),
grown when the next block is exactly adjacent, flushed (when nonempty)
otherwise. -/
def mergeLoop : Nat × Nat × Nat → List (Nat × Nat × Nat) → List (Nat × Nat × Nat)
  | (i1, j1, k1), [] => if k1 ≠ 0 then [(i1, j1, k1)] else []
  | (i1, j1, k1), (i2, j2, k2) :: rest =>
      if i1 + k1 = i2 ∧ j1 + k1 = j2 then mergeLoop (i1, j1, k1 + k2) rest
      else (if k1 ≠ 0 then [(i1, j1, k1)] else []) ++ mergeLoop (i2, j2, k2) rest

/-- Embeds `SequenceMatcher.get_matching_blocks`: the merged non-adjacent blocks
followed by the sentinel `(len(a), len(b), 0)`. -/
def getMatchingBlocks (autojunk : Bool) (a b : List String) : List (Nat × Nat × Nat) :=
  mergeLoop (0, 0, 0) (matchingBlocks autojunk a b 0 a.length 0 b.length)
    ++ [(a.length, b.length, 0)]

/-- difflib opcode tags. -/
inductive PyTag
  | replace
  | delete
  | insert
  | equal
deriving Repr, DecidableEq

/-- The tag `get_opcodes` emits for the gap before a matching block. -/
def gapTag (i ai j bj : Nat) : Option PyTag :=
  if i < ai then (if j < bj then some .replace else some .delete)
  else if j < bj then some .insert else none

/-- The loop of `get_opcodes` over the matching blocks: an optional gap
opcode, then an `equal` opcode when the block is not the sentinel. -/
def opcodesLoop : Nat → Nat → List (Nat × Nat × Nat) →
    List (PyTag × Nat × Nat × Nat × Nat)
  | _, _, [] => []
  | i, j, (ai, bj, size) :: rest =>
      (match gapTag i ai j bj with
        | some t => [(t, i, ai, j, bj)]
        | none => []) ++
      (if size ≠ 0 then [(.equal, ai, ai + size, bj, bj + size)] else []) ++
      opcodesLoop (ai + size) (bj + size) rest

/-- Embeds `SequenceMatcher.get_opcodes()`. -/
def getOpcodes (autojunk : Bool) (a b : List String) :
    List (PyTag × Nat × Nat × Nat × Nat) :=
  opcodesLoop 0 0 (getMatchingBlocks autojunk a b)

/-- Segment tags of the layered `app/services/diff.py`. -/
inductive SegType
  | unchanged
  | added
  | removed
deriving Repr, DecidableEq

/-- One `{type, content}` object produced by `services/diff.py::compute_diff`. -/
structure Seg where
  type : SegType
  content : String
deriving Repr, DecidableEq

/-- How `services/diff.py::compute_diff` renders one opcode: `equal` and
`delete`/`replace` take the original-side words, `insert`/`replace` the
enhanced-side words, each joined by single spaces; a `replace` yields
`removed` followed by `added`. -/
def renderOp (original_words enhanced_words : List String) :
    PyTag × Nat × Nat × Nat × Nat → List Seg
  | (.equal, i1, i2, _, _) => [⟨.unchanged, joinWords (slice original_words i1 i2)⟩]
  | (.replace, i1, i2, j1, j2) =>
      [⟨.removed, joinWords (slice original_words i1 i2)⟩,
       ⟨.added, joinWords (slice enhanced_words j1 j2)⟩]
  | (.delete, i1, i2, _, _) => [⟨.removed, joinWords (slice original_words i1 i2)⟩]
  | (.insert, _, _, j1, j2) => [⟨.added, joinWords (slice enhanced_words j1 j2)⟩]

/-- Embeds `app/services/diff.py::compute_diff` (layered variant, `autojunk=False`). -/
def compute_diff (original enhanced : String) : List Seg :=
  let original_words := pySplit original
  let enhanced_words := pySplit enhanced
  ((getOpcodes false original_words enhanced_words).map
    (renderOp original_words enhanced_words)).flatten

/-- Segment tags of the legacy `app/app.py::compute_diff`. -/
inductive LegacySegType
  | equal
  | insert
  | delete
deriving Repr, DecidableEq

/-- One `{type, text}` object produced by the legacy `app.py::compute_diff`. -/
structure LegacySeg where
  type : LegacySegType
  text : String
deriving Repr, DecidableEq

/-- How the legacy `app.py::compute_diff` renders one opcode. -/
def legacyRenderOp (orig_words enh_words : List String) :
    PyTag × Nat × Nat × Nat × Nat → List LegacySeg
  | (.equal, i1, i2, _, _) => [⟨.equal, joinWords (slice orig_words i1 i2)⟩]
  | (.insert, _, _, j1, j2) => [⟨.insert, joinWords (slice enh_words j1 j2)⟩]
  | (.delete, i1, i2, _, _) => [⟨.delete, joinWords (slice orig_words i1 i2)⟩]
  | (.replace, i1, i2, j1, j2) =>
      [⟨.delete, joinWords (slice orig_words i1 i2)⟩,
       ⟨.insert, joinWords (slice enh_words j1 j2)⟩]

/-- Embeds `app/app.py::compute_diff` (legacy variant; `SequenceMatcher` with the
default `autojunk=True`). -/
def legacy_compute_diff (original enhanced : String) : List LegacySeg :=
  let orig_words := pySplit original
  let enh_words := pySplit enhanced
  ((getOpcodes true orig_words enh_words).map
    (legacyRenderOp orig_words enh_words)).flatten

/-! ### The matching blocks form a monotone chain of matching windows -/

/-- The blocks produced by `get_matching_blocks` (before the sentinel) are
nonempty matching windows, in order, inside `[lo1, hi1) × [lo2, hi2)`, and
each starts no earlier than the end of the previous one. -/
def BlockChain (a b : List String) : Nat → Nat → Nat → Nat →
    List (Nat × Nat × Nat) → Prop
  | _, _, _, _, [] => True
  | lo1, lo2, hi1, hi2, (bi, bj, k) :: rest =>
      1 ≤ k ∧ lo1 ≤ bi ∧ lo2 ≤ bj ∧ bi + k ≤ hi1 ∧ bj + k ≤ hi2 ∧
      window a b bi bj k ∧ BlockChain a b (bi + k) (bj + k) hi1 hi2 rest

lemma window_append {a b : List String} {bi bj k1 k2 : Nat}
    (h1 : window a b bi bj k1) (h2 : window a b (bi + k1) (bj + k1) k2) :
    window a b bi bj (k1 + k2) := by
  intro t ht
  by_cases hlt : t < k1
  · exact h1 t hlt
  · have e1 : bi + t = bi + k1 + (t - k1) := by omega
    have e2 : bj + t = bj + k1 + (t - k1) := by omega
    rw [e1, e2]
    exact h2 (t - k1) (by omega)

lemma blockChain_mono {a b : List String} :
    ∀ (l : List (Nat × Nat × Nat)) (lo1 lo2 hi1 hi2 lo1' lo2' hi1' hi2' : Nat),
      lo1' ≤ lo1 → lo2' ≤ lo2 → hi1 ≤ hi1' → hi2 ≤ hi2' →
      BlockChain a b lo1 lo2 hi1 hi2 l → BlockChain a b lo1' lo2' hi1' hi2' l := by
  intro l
  induction l with
  | nil => intro _ _ _ _ _ _ _ _ _ _ _ _ _; trivial
  | cons blk rest ih =>
    obtain ⟨bi, bj, k⟩ := blk
    intro lo1 lo2 hi1 hi2 lo1' lo2' hi1' hi2' h1 h2 h3 h4 hc
    obtain ⟨hk, hb1, hb2, hh1, hh2, hw, hrest⟩ := hc
    exact ⟨hk, by omega, by omega, by omega, by omega, hw,
      ih _ _ _ _ _ _ _ _ (le_refl _) (le_refl _) h3 h4 hrest⟩

lemma blockChain_append {a b : List String} :
    ∀ (L1 L2 : List (Nat × Nat × Nat)) (lo1 lo2 mid1 mid2 hi1 hi2 : Nat),
      BlockChain a b lo1 lo2 mid1 mid2 L1 → BlockChain a b mid1 mid2 hi1 hi2 L2 →
      lo1 ≤ mid1 → lo2 ≤ mid2 → mid1 ≤ hi1 → mid2 ≤ hi2 →
      BlockChain a b lo1 lo2 hi1 hi2 (L1 ++ L2) := by
  intro L1
  induction L1 with
  | nil =>
    intro L2 lo1 lo2 mid1 mid2 hi1 hi2 _ h2 hm1 hm2 _ _
    simpa using blockChain_mono L2 mid1 mid2 hi1 hi2 lo1 lo2 hi1 hi2
      hm1 hm2 (le_refl _) (le_refl _) h2
  | cons blk rest ih =>
    obtain ⟨bi, bj, k⟩ := blk
    intro L2 lo1 lo2 mid1 mid2 hi1 hi2 h1 h2 hm1 hm2 hh1 hh2
    obtain ⟨hk, hb1, hb2, he1, he2, hw, hrest⟩ := h1
    exact ⟨hk, hb1, hb2, by omega, by omega, hw,
      ih L2 _ _ mid1 mid2 hi1 hi2 hrest h2 (by omega) (by omega) hh1 hh2⟩

lemma matchingBlocksAux_chain (autojunk : Bool) (a b : List String) :
    ∀ (fuel alo ahi blo bhi : Nat),
      BlockChain a b alo blo ahi bhi
        (matchingBlocksAux autojunk a b fuel alo ahi blo bhi) := by
  intro fuel
  induction fuel with
  | zero => intro _ _ _ _; trivial
  | succ fuel ih =>
    intro alo ahi blo bhi
    have hv := findLongestMatch_valid autojunk a b alo ahi blo bhi
    simp only [matchingBlocksAux]
    rcases hm : findLongestMatch autojunk a b alo ahi blo bhi with ⟨mi, mj, msize⟩
    rw [hm] at hv
    simp only
    by_cases h0 : msize = 0
    · rw [if_pos h0]; trivial
    · rw [if_neg h0]
      rcases hv with ⟨h1, _, _⟩ | ⟨h1, h2, h3, h4, h5, h6⟩
      · exact absurd h1 h0
      · simp only at h1 h2 h3 h4 h5 h6
        have hmid : BlockChain a b mi mj ahi bhi
            ((mi, mj, msize) ::
              (if mi + msize < ahi ∧ mj + msize < bhi then
                matchingBlocksAux autojunk a b fuel (mi + msize) ahi (mj + msize) bhi
              else [])) := by
          refine ⟨h1, le_refl _, le_refl _, h3, h5, h6, ?_⟩
          by_cases hr : mi + msize < ahi ∧ mj + msize < bhi
          · rw [if_pos hr]; exact ih _ _ _ _
          · rw [if_neg hr]; trivial
        by_cases hl : alo < mi ∧ blo < mj
        · rw [if_pos hl]
          exact blockChain_append _ _ alo blo mi mj ahi bhi (ih _ _ _ _) hmid
            (by omega) (by omega) (by omega) (by omega)
        · rw [if_neg hl]
          exact blockChain_mono _ mi mj ahi bhi alo blo ahi bhi h2 h4
            (le_refl _) (le_refl _) hmid

lemma mergeLoop_chain_pending (a b : List String) (hi1 hi2 : Nat) :
    ∀ (blocks : List (Nat × Nat × Nat)) (i1 j1 k1 lo1 lo2 : Nat),
      lo1 ≤ i1 → lo2 ≤ j1 → 1 ≤ k1 → i1 + k1 ≤ hi1 → j1 + k1 ≤ hi2 →
      window a b i1 j1 k1 →
      BlockChain a b (i1 + k1) (j1 + k1) hi1 hi2 blocks →
      BlockChain a b lo1 lo2 hi1 hi2 (mergeLoop (i1, j1, k1) blocks) := by
  intro blocks
  induction blocks with
  | nil =>
    intro i1 j1 k1 lo1 lo2 hl1 hl2 hk he1 he2 hw _
    rw [mergeLoop, if_pos (by omega)]
    exact ⟨hk, hl1, hl2, he1, he2, hw, trivial⟩
  | cons blk rest ih =>
    obtain ⟨i2, j2, k2⟩ := blk
    intro i1 j1 k1 lo1 lo2 hl1 hl2 hk he1 he2 hw hc
    obtain ⟨hk2, hb1, hb2, hf1, hf2, hw2, hrest⟩ := hc
    rw [mergeLoop]
    by_cases hadj : i1 + k1 = i2 ∧ j1 + k1 = j2
    · rw [if_pos hadj]
      obtain ⟨ha1, ha2⟩ := hadj
      apply ih _ _ _ _ _ hl1 hl2 (by omega) (by omega) (by omega)
      · apply window_append hw
        rw [ha1, ha2]; exact hw2
      · have e1 : i1 + (k1 + k2) = i2 + k2 := by omega
        have e2 : j1 + (k1 + k2) = j2 + k2 := by omega
        rw [e1, e2]; exact hrest
    · rw [if_neg hadj, if_pos (by omega : k1 ≠ 0)]
      refine ⟨hk, hl1, hl2, he1, he2, hw, ?_⟩
      exact ih _ _ _ _ _ hb1 hb2 hk2 hf1 hf2 hw2 hrest

lemma mergeLoop_chain (a b : List String) (hi1 hi2 : Nat) :
    ∀ (blocks : List (Nat × Nat × Nat)),
      BlockChain a b 0 0 hi1 hi2 blocks →
      BlockChain a b 0 0 hi1 hi2 (mergeLoop (0, 0, 0) blocks) := by
  intro blocks
  cases blocks with
  | nil => intro h; rw [mergeLoop]; simpa using h
  | cons blk rest =>
    obtain ⟨i2, j2, k2⟩ := blk
    intro hc
    obtain ⟨hk2, hb1, hb2, hf1, hf2, hw2, hrest⟩ := hc
    rw [mergeLoop]
    by_cases hadj : 0 + 0 = i2 ∧ 0 + 0 = j2
    · rw [if_pos hadj]
      obtain ⟨ha1, ha2⟩ := hadj
      apply mergeLoop_chain_pending a b hi1 hi2 rest 0 0 (0 + k2) 0 0
        (le_refl _) (le_refl _) (by omega) (by omega) (by omega)
      · intro t ht
        have := hw2 t (by omega)
        simpa [← ha1, ← ha2] using this
      · convert hrest using 2 <;> omega
    · rw [if_neg hadj]
      simp only [if_neg (by simp : ¬ ((0:Nat) ≠ 0)), List.nil_append]
      exact mergeLoop_chain_pending a b hi1 hi2 rest i2 j2 k2 0 0
        (by omega) (by omega) hk2 hf1 hf2 hw2 hrest

/-! ### Opcode coverage: opcode ranges partition both word sequences -/

lemma slice_append {α : Type} {l : List α} {i j k : Nat} (h1 : i ≤ j) (h2 : j ≤ k) :
    slice l i j ++ slice l j k = slice l i k := by
  simp only [slice]
  have hd : l.drop j = (l.drop i).drop (j - i) := by
    rw [List.drop_drop]; congr 1; omega
  rw [hd]
  have he : k - i = (j - i) + (k - j) := by omega
  rw [he, List.take_add]

lemma slice_length {α : Type} {l : List α} {i j : Nat} (h1 : i ≤ j)
    (h2 : j ≤ l.length) : (slice l i j).length = j - i := by
  simp only [slice, List.length_take, List.length_drop]
  omega

lemma slice_ne_nil {α : Type} {l : List α} {i j : Nat} (h1 : i < j)
    (h2 : j ≤ l.length) : slice l i j ≠ [] := by
  have := slice_length (l := l) (by omega : i ≤ j) h2
  intro hc
  rw [hc] at this
  simp at this
  omega

lemma slice_empty {α : Type} {l : List α} {i j : Nat} (h : j ≤ i) :
    slice l i j = [] := by
  simp only [slice]
  have : j - i = 0 := by omega
  rw [this, List.take_zero]

lemma slice_full {α : Type} (l : List α) : slice l 0 l.length = l := by
  simp [slice]

lemma getElem_slice {α : Type} {l : List α} {i j n : Nat}
    (hn : n < (slice l i j).length) (hlen : i + n < l.length) :
    (slice l i j)[n] = l[i + n] := by
  simp only [slice] at hn ⊢
  rw [List.getElem_take, List.getElem_drop]

lemma window_slice_eq {a b : List String} {bi bj k : Nat}
    (hw : window a b bi bj k) (ha : bi + k ≤ a.length) (hb : bj + k ≤ b.length) :
    slice a bi (bi + k) = slice b bj (bj + k) := by
  apply List.ext_getElem
  · rw [slice_length (by omega) ha, slice_length (by omega) hb]
    omega
  · intro n h₁ h₂
    have hna : bi + n < a.length := by
      have := slice_length (l := a) (i := bi) (j := bi + k) (by omega) ha
      omega
    have hnb : bj + n < b.length := by
      have := slice_length (l := b) (i := bj) (j := bj + k) (by omega) hb
      omega
    rw [getElem_slice h₁ hna, getElem_slice h₂ hnb]
    have hnk : n < k := by
      have := slice_length (l := a) (i := bi) (j := bi + k) (by omega) ha
      omega
    have := hw n hnk
    rwa [List.getD_eq_getElem a "" hna, List.getD_eq_getElem b "" hnb] at this

/-- The original-side word slices an opcode list selects (those rendered
into `unchanged` and `removed` segments), in order. -/
def origSlices (ow : List String) (ops : List (PyTag × Nat × Nat × Nat × Nat)) :
    List (List String) :=
  ops.filterMap (fun op =>
    match op with
    | (.insert, _, _, _, _) => none
    | (_, i1, i2, _, _) => some (slice ow i1 i2))

/-- The enhanced-side word slices an opcode list selects (those rendered
into `unchanged` and `added` segments); for `equal` opcodes the renderer
reads the original words, mirrored here. -/
def newSlices (ow ew : List String) (ops : List (PyTag × Nat × Nat × Nat × Nat)) :
    List (List String) :=
  ops.filterMap (fun op =>
    match op with
    | (.equal, i1, i2, _, _) => some (slice ow i1 i2)
    | (.delete, _, _, _, _) => none
    | (_, _, _, j1, j2) => some (slice ew j1 j2))

lemma gapTag_replace {i ai j bj : Nat} (h1 : i < ai) (h2 : j < bj) :
    gapTag i ai j bj = some .replace := by simp [gapTag, h1, h2]

lemma gapTag_delete {i ai j bj : Nat} (h1 : i < ai) (h2 : ¬ j < bj) :
    gapTag i ai j bj = some .delete := by simp [gapTag, h1, h2]

lemma gapTag_insert {i ai j bj : Nat} (h1 : ¬ i < ai) (h2 : j < bj) :
    gapTag i ai j bj = some .insert := by simp [gapTag, h1, h2]

lemma gapTag_none {i ai j bj : Nat} (h1 : ¬ i < ai) (h2 : ¬ j < bj) :
    gapTag i ai j bj = none := by simp [gapTag, h1, h2]

lemma origSlices_nil (ow : List String) : origSlices ow [] = [] := rfl

lemma origSlices_append (ow : List String)
    (l1 l2 : List (PyTag × Nat × Nat × Nat × Nat)) :
    origSlices ow (l1 ++ l2) = origSlices ow l1 ++ origSlices ow l2 :=
  List.filterMap_append _ _ _

lemma origSlices_equal (ow : List String) (i1 i2 j1 j2 : Nat)
    (rest : List (PyTag × Nat × Nat × Nat × Nat)) :
    origSlices ow ((.equal, i1, i2, j1, j2) :: rest)
      = slice ow i1 i2 :: origSlices ow rest := rfl

lemma origSlices_replace (ow : List String) (i1 i2 j1 j2 : Nat)
    (rest : List (PyTag × Nat × Nat × Nat × Nat)) :
    origSlices ow ((.replace, i1, i2, j1, j2) :: rest)
      = slice ow i1 i2 :: origSlices ow rest := rfl

lemma origSlices_delete (ow : List String) (i1 i2 j1 j2 : Nat)
    (rest : List (PyTag × Nat × Nat × Nat × Nat)) :
    origSlices ow ((.delete, i1, i2, j1, j2) :: rest)
      = slice ow i1 i2 :: origSlices ow rest := rfl

lemma origSlices_insert (ow : List String) (i1 i2 j1 j2 : Nat)
    (rest : List (PyTag × Nat × Nat × Nat × Nat)) :
    origSlices ow ((.insert, i1, i2, j1, j2) :: rest) = origSlices ow rest := rfl

lemma newSlices_nil (ow ew : List String) : newSlices ow ew [] = [] := rfl

lemma newSlices_append (ow ew : List String)
    (l1 l2 : List (PyTag × Nat × Nat × Nat × Nat)) :
    newSlices ow ew (l1 ++ l2) = newSlices ow ew l1 ++ newSlices ow ew l2 :=
  List.filterMap_append _ _ _

lemma newSlices_equal (ow ew : List String) (i1 i2 j1 j2 : Nat)
    (rest : List (PyTag × Nat × Nat × Nat × Nat)) :
    newSlices ow ew ((.equal, i1, i2, j1, j2) :: rest)
      = slice ow i1 i2 :: newSlices ow ew rest := rfl

lemma newSlices_replace (ow ew : List String) (i1 i2 j1 j2 : Nat)
    (rest : List (PyTag × Nat × Nat × Nat × Nat)) :
    newSlices ow ew ((.replace, i1, i2, j1, j2) :: rest)
      = slice ew j1 j2 :: newSlices ow ew rest := rfl

lemma newSlices_delete (ow ew : List String) (i1 i2 j1 j2 : Nat)
    (rest : List (PyTag × Nat × Nat × Nat × Nat)) :
    newSlices ow ew ((.delete, i1, i2, j1, j2) :: rest)
      = newSlices ow ew rest := rfl

lemma newSlices_insert (ow ew : List String) (i1 i2 j1 j2 : Nat)
    (rest : List (PyTag × Nat × Nat × Nat × Nat)) :
    newSlices ow ew ((.insert, i1, i2, j1, j2) :: rest)
      = slice ew j1 j2 :: newSlices ow ew rest := rfl

lemma opcodes_cover (a b : List String) :
    ∀ (blocks : List (Nat × Nat × Nat)) (i0 j0 : Nat),
      BlockChain a b i0 j0 a.length b.length blocks →
      i0 ≤ a.length → j0 ≤ b.length →
      (origSlices a (opcodesLoop i0 j0 (blocks ++ [(a.length, b.length, 0)]))).flatten
          = slice a i0 a.length ∧
      (∀ l ∈ origSlices a (opcodesLoop i0 j0 (blocks ++ [(a.length, b.length, 0)])),
        l ≠ []) ∧
      (newSlices a b (opcodesLoop i0 j0 (blocks ++ [(a.length, b.length, 0)]))).flatten
          = slice b j0 b.length ∧
      (∀ l ∈ newSlices a b (opcodesLoop i0 j0 (blocks ++ [(a.length, b.length, 0)])),
        l ≠ []) := by
  intro blocks
  induction blocks with
  | nil =>
    intro i0 j0 _ hi0 hj0
    simp only [List.nil_append, opcodesLoop]
    rw [if_neg (by omega : ¬ (0:Nat) ≠ 0)]
    by_cases h1 : i0 < a.length
    · by_cases h2 : j0 < b.length
      · rw [gapTag_replace h1 h2]
        simp only [List.append_nil]
        rw [origSlices_replace, origSlices_nil, newSlices_replace, newSlices_nil]
        refine ⟨by simp, ?_, by simp, ?_⟩
        · intro l hl
          rcases List.mem_cons.mp hl with rfl | hl
          · exact slice_ne_nil h1 (le_refl _)
          · simp at hl
        · intro l hl
          rcases List.mem_cons.mp hl with rfl | hl
          · exact slice_ne_nil h2 (le_refl _)
          · simp at hl
      · have hj : j0 = b.length := by omega
        rw [gapTag_delete h1 h2]
        simp only [List.append_nil]
        rw [origSlices_delete, origSlices_nil, newSlices_delete, newSlices_nil]
        refine ⟨by simp, ?_, by simp [slice_empty (le_of_eq hj.symm)], by simp⟩
        intro l hl
        rcases List.mem_cons.mp hl with rfl | hl
        · exact slice_ne_nil h1 (le_refl _)
        · simp at hl
    · have hi : i0 = a.length := by omega
      by_cases h2 : j0 < b.length
      · rw [gapTag_insert h1 h2]
        simp only [List.append_nil]
        rw [origSlices_insert, origSlices_nil, newSlices_insert, newSlices_nil]
        refine ⟨by simp [slice_empty (le_of_eq hi.symm)], by simp, by simp, ?_⟩
        intro l hl
        rcases List.mem_cons.mp hl with rfl | hl
        · exact slice_ne_nil h2 (le_refl _)
        · simp at hl
      · have hj : j0 = b.length := by omega
        rw [gapTag_none h1 h2]
        simp only [List.nil_append, List.append_nil]
        rw [origSlices_nil, newSlices_nil]
        exact ⟨by simp [slice_empty (le_of_eq hi.symm)], by simp,
          by simp [slice_empty (le_of_eq hj.symm)], by simp⟩
  | cons blk rest ih =>
    obtain ⟨bi, bj, k⟩ := blk
    intro i0 j0 hc hi0 hj0
    obtain ⟨hk, hb1, hb2, he1, he2, hw, hrest⟩ := hc
    obtain ⟨ihO, ihOne, ihN, ihNne⟩ := ih (bi + k) (bj + k) hrest (by omega) (by omega)
    have heq : slice a bi (bi + k) = slice b bj (bj + k) :=
      window_slice_eq hw he1 he2
    have hone : slice a bi (bi + k) ≠ [] := slice_ne_nil (by omega) he1
    have hnne : slice b bj (bj + k) ≠ [] := heq ▸ hone
    simp only [List.cons_append, opcodesLoop]
    rw [if_pos (by omega : k ≠ 0)]
    by_cases h1 : i0 < bi
    · have hgapO : slice a i0 bi ≠ [] := slice_ne_nil h1 (by omega)
      by_cases h2 : j0 < bj
      · have hgapN : slice b j0 bj ≠ [] := slice_ne_nil h2 (by omega)
        rw [gapTag_replace h1 h2]
        simp only [List.cons_append, List.nil_append, List.singleton_append, List.append_eq]
        rw [origSlices_replace, origSlices_equal, newSlices_replace, newSlices_equal]
        refine ⟨?_, ?_, ?_, ?_⟩
        · simp only [List.flatten_cons]
          rw [ihO, slice_append (by omega : bi ≤ bi + k) he1,
            slice_append (by omega : i0 ≤ bi) (by omega : bi ≤ a.length)]
        · intro l hl
          rcases List.mem_cons.mp hl with rfl | hl
          · exact hgapO
          rcases List.mem_cons.mp hl with rfl | hl
          · exact hone
          · exact ihOne l hl
        · simp only [List.flatten_cons]
          rw [heq, ihN, slice_append (by omega : bj ≤ bj + k) he2,
            slice_append (by omega : j0 ≤ bj) (by omega : bj ≤ b.length)]
        · intro l hl
          rcases List.mem_cons.mp hl with rfl | hl
          · exact hgapN
          rcases List.mem_cons.mp hl with rfl | hl
          · exact hone
          · exact ihNne l hl
      · have hj : j0 = bj := by omega
        rw [gapTag_delete h1 h2]
        simp only [List.cons_append, List.nil_append, List.singleton_append, List.append_eq]
        rw [origSlices_delete, origSlices_equal, newSlices_delete, newSlices_equal]
        refine ⟨?_, ?_, ?_, ?_⟩
        · simp only [List.flatten_cons]
          rw [ihO, slice_append (by omega : bi ≤ bi + k) he1,
            slice_append (by omega : i0 ≤ bi) (by omega : bi ≤ a.length)]
        · intro l hl
          rcases List.mem_cons.mp hl with rfl | hl
          · exact hgapO
          rcases List.mem_cons.mp hl with rfl | hl
          · exact hone
          · exact ihOne l hl
        · simp only [List.flatten_cons]
          rw [heq, ihN, slice_append (by omega : bj ≤ bj + k) he2, hj]
        · intro l hl
          rcases List.mem_cons.mp hl with rfl | hl
          · exact hone
          · exact ihNne l hl
    · have hi : i0 = bi := by omega
      by_cases h2 : j0 < bj
      · have hgapN : slice b j0 bj ≠ [] := slice_ne_nil h2 (by omega)
        rw [gapTag_insert h1 h2]
        simp only [List.cons_append, List.nil_append, List.singleton_append, List.append_eq]
        rw [origSlices_insert, origSlices_equal, newSlices_insert, newSlices_equal]
        refine ⟨?_, ?_, ?_, ?_⟩
        · simp only [List.flatten_cons]
          rw [ihO, slice_append (by omega : bi ≤ bi + k) he1, hi]
        · intro l hl
          rcases List.mem_cons.mp hl with rfl | hl
          · exact hone
          · exact ihOne l hl
        · simp only [List.flatten_cons]
          rw [heq, ihN, slice_append (by omega : bj ≤ bj + k) he2,
            slice_append (by omega : j0 ≤ bj) (by omega : bj ≤ b.length)]
        · intro l hl
          rcases List.mem_cons.mp hl with rfl | hl
          · exact hgapN
          rcases List.mem_cons.mp hl with rfl | hl
          · exact hone
          · exact ihNne l hl
      · have hj : j0 = bj := by omega
        rw [gapTag_none h1 h2]
        simp only [List.cons_append, List.nil_append, List.singleton_append, List.append_eq]
        rw [origSlices_equal, newSlices_equal]
        refine ⟨?_, ?_, ?_, ?_⟩
        · simp only [List.flatten_cons]
          rw [ihO, slice_append (by omega : bi ≤ bi + k) he1, hi]
        · intro l hl
          rcases List.mem_cons.mp hl with rfl | hl
          · exact hone
          · exact ihOne l hl
        · simp only [List.flatten_cons]
          rw [heq, ihN, slice_append (by omega : bj ≤ bj + k) he2, hj]
        · intro l hl
          rcases List.mem_cons.mp hl with rfl | hl
          · exact hone
          · exact ihNne l hl

/-! ### From opcode slices to rendered segments -/

/-- The original-side content of a segment (`unchanged` and `removed`
segments carry original-side text). -/
def origContent (s : Seg) : Option String :=
  match s.type with
  | .added => none
  | _ => some s.content

/-- The enhanced-side content of a segment (`unchanged` and `added`
segments carry enhanced-side text: `unchanged` content is common to both). -/
def newContent (s : Seg) : Option String :=
  match s.type with
  | .removed => none
  | _ => some s.content

lemma render_orig (ow ew : List String) :
    ∀ ops : List (PyTag × Nat × Nat × Nat × Nat),
      ((ops.map (renderOp ow ew)).flatten).filterMap origContent
        = (origSlices ow ops).map joinWords := by
  intro ops
  induction ops with
  | nil => rfl
  | cons op rest ih =>
    obtain ⟨t, i1, i2, j1, j2⟩ := op
    cases t <;>
      simp only [List.map_cons, List.flatten_cons, List.filterMap_append, ih,
        renderOp, origContent, origSlices_equal, origSlices_replace,
        origSlices_delete, origSlices_insert, List.filterMap_cons,
        List.filterMap_nil, List.map_cons, List.nil_append, List.cons_append]

lemma render_new (ow ew : List String) :
    ∀ ops : List (PyTag × Nat × Nat × Nat × Nat),
      ((ops.map (renderOp ow ew)).flatten).filterMap newContent
        = (newSlices ow ew ops).map joinWords := by
  intro ops
  induction ops with
  | nil => rfl
  | cons op rest ih =>
    obtain ⟨t, i1, i2, j1, j2⟩ := op
    cases t <;>
      simp only [List.map_cons, List.flatten_cons, List.filterMap_append, ih,
        renderOp, newContent, newSlices_equal, newSlices_replace,
        newSlices_delete, newSlices_insert, List.filterMap_cons,
        List.filterMap_nil, List.map_cons, List.nil_append, List.cons_append]

lemma joinWords_cons2 (x y : String) (l : List String) :
    joinWords (x :: y :: l) = x ++ " " ++ joinWords (y :: l) := rfl

lemma joinWords_append : ∀ {xs ys : List String}, xs ≠ [] → ys ≠ [] →
    joinWords (xs ++ ys) = joinWords xs ++ " " ++ joinWords ys := by
  intro xs
  induction xs with
  | nil => intro ys h _; exact absurd rfl h
  | cons x xs ih =>
    intro ys _ hy
    cases xs with
    | nil =>
      cases ys with
      | nil => exact absurd rfl hy
      | cons y ys2 => rfl
    | cons x2 xs2 =>
      have : (x :: x2 :: xs2) ++ ys = x :: ((x2 :: xs2) ++ ys) := rfl
      rw [this, joinWords_cons2 x x2 xs2]
      have h2 : (x2 :: xs2) ++ ys = x2 :: (xs2 ++ ys) := rfl
      rw [show x :: ((x2 :: xs2) ++ ys) = x :: x2 :: (xs2 ++ ys) from rfl]
      rw [show joinWords (x :: x2 :: (xs2 ++ ys))
          = x ++ " " ++ joinWords (x2 :: (xs2 ++ ys)) from rfl]
      rw [← h2, ih (by simp) hy]
      simp [String.append_assoc]

lemma flatten_ne_nil {α : Type} {l : List α} {ls : List (List α)}
    (hl : l ≠ []) : (l :: ls).flatten ≠ [] := by
  simp only [List.flatten_cons]
  intro hc
  rcases List.append_eq_nil.mp hc with ⟨h1, _⟩
  exact hl h1

lemma joinWords_flatten : ∀ (ls : List (List String)), (∀ l ∈ ls, l ≠ []) →
    joinWords (ls.map joinWords) = joinWords ls.flatten := by
  intro ls
  induction ls with
  | nil => intro _; rfl
  | cons l ls ih =>
    intro hne
    have hl : l ≠ [] := hne l (List.mem_cons_self _ _)
    cases ls with
    | nil => simp [joinWords]
    | cons l2 ls2 =>
      have hl2 : l2 ≠ [] := hne l2 (by simp)
      have hflat : (l2 :: ls2).flatten ≠ [] := flatten_ne_nil hl2
      show joinWords (joinWords l :: joinWords l2 :: List.map joinWords ls2)
          = joinWords (l ++ (l2 :: ls2).flatten)
      rw [joinWords_cons2, joinWords_append hl hflat]
      congr 1
      exact ih (fun x hx => hne x (List.mem_cons_of_mem _ hx))

/-- The merged blocks of `get_matching_blocks` (without the sentinel) form
a valid chain over the two word sequences. -/
lemma getMatchingBlocks_chain (autojunk : Bool) (a b : List String) :
    BlockChain a b 0 0 a.length b.length
      (mergeLoop (0, 0, 0) (matchingBlocks autojunk a b 0 a.length 0 b.length)) :=
  mergeLoop_chain a b a.length b.length _
    (matchingBlocksAux_chain autojunk a b (a.length - 0) 0 a.length 0 b.length)

/-- Both reconstruction identities, for the layered `compute_diff`:
joining the original-side contents (unchanged + removed) with single spaces
rebuilds the whitespace-normalised original, and likewise for the
enhanced side. -/
lemma compute_diff_reconstruct (A B : String) :
    joinWords ((compute_diff A B).filterMap origContent)
        = joinWords (pySplit A) ∧
    joinWords ((compute_diff A B).filterMap newContent)
        = joinWords (pySplit B) := by
  obtain ⟨hO, hOne, hN, hNne⟩ := opcodes_cover (pySplit A) (pySplit B)
    (mergeLoop (0, 0, 0)
      (matchingBlocks false (pySplit A) (pySplit B) 0 (pySplit A).length 0
        (pySplit B).length))
    0 0 (getMatchingBlocks_chain false (pySplit A) (pySplit B))
    (Nat.zero_le _) (Nat.zero_le _)
  have hOc : (origSlices (pySplit A)
      (getOpcodes false (pySplit A) (pySplit B))).flatten
      = slice (pySplit A) 0 (pySplit A).length := hO
  have hOnec : ∀ l ∈ origSlices (pySplit A)
      (getOpcodes false (pySplit A) (pySplit B)), l ≠ [] := hOne
  have hNc : (newSlices (pySplit A) (pySplit B)
      (getOpcodes false (pySplit A) (pySplit B))).flatten
      = slice (pySplit B) 0 (pySplit B).length := hN
  have hNnec : ∀ l ∈ newSlices (pySplit A) (pySplit B)
      (getOpcodes false (pySplit A) (pySplit B)), l ≠ [] := hNne
  constructor
  · show joinWords ((((getOpcodes false (pySplit A) (pySplit B)).map
        (renderOp (pySplit A) (pySplit B))).flatten).filterMap origContent) = _
    rw [render_orig]
    rw [joinWords_flatten _ hOnec]
    rw [hOc, slice_full]
  · show joinWords ((((getOpcodes false (pySplit A) (pySplit B)).map
        (renderOp (pySplit A) (pySplit B))).flatten).filterMap newContent) = _
    rw [render_new]
    rw [joinWords_flatten _ hNnec]
    rw [hNc, slice_full]

/-! ### The diff of a sequence against itself is a single equal opcode -/

lemma innerLoop_size_mono (i : Nat) (f : Nat → Nat) :
    ∀ (js : List Nat) (g : Nat → Nat) (best : Best),
      best.size ≤ ((innerLoop i f js g best).2).size := by
  intro js
  induction js with
  | nil => intro g best; exact le_refl _
  | cons j js ih =>
    intro g best
    simp only [innerLoop]
    refine le_trans ?_ (ih _ _)
    by_cases h : best.size < (if j = 0 then 0 else f (j - 1)) + 1
    · rw [if_pos h]
      show best.size ≤ (if j = 0 then 0 else f (j - 1)) + 1
      omega
    · rw [if_neg h]

lemma innerLoop_preserve (i : Nat) (f : Nat → Nat) :
    ∀ (js : List Nat) (g : Nat → Nat) (best : Best) (j0 : Nat), j0 ∉ js →
      (innerLoop i f js g best).1 j0 = g j0 := by
  intro js
  induction js with
  | nil => intro g best j0 _; rfl
  | cons j js ih =>
    intro g best j0 hnot
    have hne : j0 ≠ j := fun hc => hnot (hc ▸ List.mem_cons_self _ _)
    simp only [innerLoop]
    rw [ih _ _ j0 (fun hc => hnot (List.mem_cons_of_mem _ hc))]
    simp [hne]

lemma innerLoop_hits (i : Nat) (f : Nat → Nat) :
    ∀ (js1 : List Nat) (j0 : Nat) (js2 : List Nat) (g : Nat → Nat) (best : Best),
      j0 ∉ js1 → j0 ∉ js2 →
      (innerLoop i f (js1 ++ j0 :: js2) g best).1 j0
          = (if j0 = 0 then 0 else f (j0 - 1)) + 1 ∧
      (if j0 = 0 then 0 else f (j0 - 1)) + 1
          ≤ ((innerLoop i f (js1 ++ j0 :: js2) g best).2).size := by
  intro js1
  induction js1 with
  | nil =>
    intro j0 js2 g best _ hnotin
    simp only [List.nil_append, innerLoop]
    constructor
    · rw [innerLoop_preserve i f js2 _ _ j0 hnotin]
      simp
    · refine le_trans ?_ (innerLoop_size_mono i f js2 _ _)
      by_cases h : best.size < (if j0 = 0 then 0 else f (j0 - 1)) + 1
      · rw [if_pos h]
      · rw [if_neg h]
        omega
  | cons j js1 ih =>
    intro j0 js2 g best hnotin1 hnotin2
    simp only [List.cons_append, innerLoop]
    exact ih j0 js2 _ _ (fun hc => hnotin1 (List.mem_cons_of_mem _ hc)) hnotin2

lemma diag_js_split (w : List String) (i : Nat) (hi : i < w.length) :
    ∃ js1 js2, (b2j false w (w.getD i "")).filter
        (fun j => decide (0 ≤ j ∧ j < w.length)) = js1 ++ i :: js2 ∧
      i ∉ js1 ∧ i ∉ js2 := by
  have hmem : i ∈ (b2j false w (w.getD i "")).filter
      (fun j => decide (0 ≤ j ∧ j < w.length)) := by
    rw [List.mem_filter]
    constructor
    · simp only [b2j]
      rw [if_neg (by simp)]
      rw [List.mem_filter]
      exact ⟨List.mem_range.mpr hi, by simp⟩
    · simp [hi]
  obtain ⟨js1, js2, hsplit⟩ := List.append_of_mem hmem
  refine ⟨js1, js2, hsplit, ?_, ?_⟩
  · have hpair : ((b2j false w (w.getD i "")).filter
        (fun j => decide (0 ≤ j ∧ j < w.length))).Pairwise (· < ·) := by
      refine List.Pairwise.sublist ?_ (List.pairwise_lt_range w.length)
      refine List.Sublist.trans (List.filter_sublist _) ?_
      show (b2j false w (w.getD i "")).Sublist (List.range w.length)
      simp only [b2j]
      rw [if_neg (by simp)]
      exact List.filter_sublist _
    rw [hsplit] at hpair
    rw [List.pairwise_append] at hpair
    intro hmem1
    have := hpair.2.2 i hmem1 i (List.mem_cons_self _ _)
    omega
  · have hpair : ((b2j false w (w.getD i "")).filter
        (fun j => decide (0 ≤ j ∧ j < w.length))).Pairwise (· < ·) := by
      refine List.Pairwise.sublist ?_ (List.pairwise_lt_range w.length)
      refine List.Sublist.trans (List.filter_sublist _) ?_
      show (b2j false w (w.getD i "")).Sublist (List.range w.length)
      simp only [b2j]
      rw [if_neg (by simp)]
      exact List.filter_sublist _
    rw [hsplit] at hpair
    rw [List.pairwise_append] at hpair
    intro hmem2
    have hp := hpair.2.1
    rw [List.pairwise_cons] at hp
    have := hp.1 i hmem2
    omega

lemma dpLoop_diag (w : List String) :
    ∀ (m i : Nat) (f : Nat → Nat) (best : Best),
      i + m = w.length →
      (i ≠ 0 → f (i - 1) = i) →
      i ≤ best.size →
      w.length ≤ (dpLoop false w w 0 w.length (List.range' i m) f best).size := by
  intro m
  induction m with
  | zero =>
    intro i f best him _ hbest
    simp only [dpLoop]
    omega
  | succ m ih =>
    intro i f best him hf hbest
    rw [List.range'_succ]
    simp only [dpLoop]
    obtain ⟨js1, js2, hsplit, hnot1, hnot2⟩ := diag_js_split w i (by omega)
    rcases hIL : innerLoop i f ((b2j false w (w.getD i "")).filter
        (fun j => decide (0 ≤ j ∧ j < w.length))) (fun _ => 0) best with ⟨g, best2⟩
    rw [hsplit] at hIL
    obtain ⟨hg, hb⟩ := innerLoop_hits i f js1 i js2 (fun _ => 0) best hnot1 hnot2
    rw [hIL] at hg hb
    simp only at hg hb
    have hki : (if i = 0 then 0 else f (i - 1)) + 1 = i + 1 := by
      by_cases h0 : i = 0
      · rw [if_pos h0, h0]
      · rw [if_neg h0, hf h0]
    rw [hki] at hg hb
    refine le_trans (ih (i + 1) g best2 (by omega) (fun _ => by simpa using hg)
      (by omega)) ?_
    exact le_refl _

lemma findLongestMatch_diag (w : List String) (hn : w.length ≠ 0) :
    findLongestMatch false w w 0 w.length 0 w.length = ⟨0, 0, w.length⟩ := by
  have hvalid := findLongestMatch_valid false w w 0 w.length 0 w.length
  have hdiag : w.length ≤ (dpLoop false w w 0 w.length
      (List.range' 0 (w.length - 0)) (fun _ => 0) ⟨0, 0, 0⟩).size := by
    rw [show w.length - 0 = w.length from rfl]
    exact dpLoop_diag w w.length 0 (fun _ => 0) ⟨0, 0, 0⟩ (by omega)
      (fun h => absurd rfl h) (Nat.zero_le _)
  rcases hd : dpLoop false w w 0 w.length
      (List.range' 0 (w.length - 0)) (fun _ => 0) ⟨0, 0, 0⟩ with ⟨bi, bj, bs⟩
  rw [hd] at hdiag
  simp only at hdiag
  -- the DP best is itself valid, and a window of size ≥ n inside [0, n) must
  -- be exactly (0, 0, n)
  have hdv : BestValid w w 0 w.length 0 w.length ⟨bi, bj, bs⟩ := by
    rw [← hd]
    apply dpLoop_valid false w w 0 w.length 0 w.length (w.length - 0) 0
      (fun _ => 0) ⟨0, 0, 0⟩ (le_refl _) (by omega)
    · intro j; left; rfl
    · left; exact ⟨rfl, rfl, rfl⟩
  have hbs : bs = w.length ∧ bi = 0 ∧ bj = 0 := by
    rcases hdv with ⟨h1, h2, h3⟩ | ⟨h1, h2, h3, h4, h5, _⟩
    · simp only at h1 h2 h3; omega
    · simp only at h1 h2 h3 h4 h5; omega
  obtain ⟨rfl, rfl, rfl⟩ := hbs
  simp only [findLongestMatch]
  rw [hd]
  simp only [extendBack]
  show (⟨0, 0, extendFwd w w w.length w.length 0 0 w.length⟩ : Best) = _
  rw [show extendFwd w w w.length w.length 0 0 w.length
      = extendFwdAux w w w.length w.length 0 0
        (w.length - (0 + w.length)) w.length from rfl]
  rw [show w.length - (0 + w.length) = 0 by omega]
  rfl

/-- Identity diff `compute_diff(A, A)`: one `unchanged` segment holding the normalised
text when `A` has any words, and the empty list when it has none. -/
lemma compute_diff_self (A : String) :
    (pySplit A ≠ [] → compute_diff A A = [⟨.unchanged, joinWords (pySplit A)⟩]) ∧
    (pySplit A = [] → compute_diff A A = []) := by
  constructor
  · intro hne
    have hn : (pySplit A).length ≠ 0 := by
      intro hc
      exact hne (List.eq_nil_of_length_eq_zero hc)
    obtain ⟨m, hm⟩ : ∃ m, (pySplit A).length = m + 1 :=
      ⟨(pySplit A).length - 1, by omega⟩
    have hblocks : matchingBlocks false (pySplit A) (pySplit A)
        0 (pySplit A).length 0 (pySplit A).length = [(0, 0, (pySplit A).length)] := by
      show matchingBlocksAux false (pySplit A) (pySplit A)
        ((pySplit A).length - 0) 0 (pySplit A).length 0 (pySplit A).length = _
      rw [show (pySplit A).length - 0 = m + 1 from by omega]
      rw [matchingBlocksAux]
      rw [findLongestMatch_diag (pySplit A) hn]
      simp only
      rw [if_neg hn, if_neg (by omega : ¬ ((0:Nat) < 0 ∧ (0:Nat) < 0)),
        if_neg (by omega : ¬ (0 + (pySplit A).length < (pySplit A).length ∧
          0 + (pySplit A).length < (pySplit A).length))]
      rfl
    have hmerged : mergeLoop (0, 0, 0) (matchingBlocks false (pySplit A) (pySplit A)
        0 (pySplit A).length 0 (pySplit A).length) = [(0, 0, (pySplit A).length)] := by
      rw [hblocks, mergeLoop, if_pos (by omega : (0:Nat) + 0 = 0 ∧ (0:Nat) + 0 = 0),
        mergeLoop, if_pos (by omega : 0 + (pySplit A).length ≠ 0)]
      rw [show 0 + (pySplit A).length = (pySplit A).length by omega]
    have hops : getOpcodes false (pySplit A) (pySplit A)
        = [(.equal, 0, (pySplit A).length, 0, (pySplit A).length)] := by
      show opcodesLoop 0 0 (mergeLoop (0, 0, 0) (matchingBlocks false
        (pySplit A) (pySplit A) 0 (pySplit A).length 0 (pySplit A).length)
          ++ [((pySplit A).length, (pySplit A).length, 0)]) = _
      rw [hmerged]
      simp only [List.cons_append, List.nil_append, opcodesLoop]
      rw [gapTag_none (by omega) (by omega), if_pos hn,
        gapTag_none (by omega : ¬ 0 + (pySplit A).length < (pySplit A).length)
          (by omega : ¬ 0 + (pySplit A).length < (pySplit A).length),
        if_neg (by omega : ¬ (0:Nat) ≠ 0)]
      simp only [List.nil_append, List.append_nil, Nat.zero_add]
    show ((getOpcodes false (pySplit A) (pySplit A)).map
        (renderOp (pySplit A) (pySplit A))).flatten = _
    rw [hops]
    simp only [List.map_cons, List.map_nil, renderOp, List.flatten_cons,
      List.flatten_nil, List.append_nil]
    rw [slice_full]
  · intro hz
    show ((getOpcodes false (pySplit A) (pySplit A)).map
        (renderOp (pySplit A) (pySplit A))).flatten = _
    rw [hz]
    rfl

/-! ### Segment adjacency: a replacement renders as removed-then-added -/

/-- Allowed adjacency between consecutive diff segments: a `removed`
segment is never followed by another `removed`, and an `added` segment is
only ever followed by an `unchanged` one.  In particular segments of one
replacement appear as the contiguous pair `removed`, `added` and are never
interleaved token-by-token. -/
def SegStep (s t : Seg) : Prop :=
  (s.type = .removed → t.type ≠ .removed) ∧
  (s.type = .added → t.type = .unchanged)

lemma segStep_unchanged_left (c : String) (t : Seg) :
    SegStep ⟨.unchanged, c⟩ t := by
  constructor <;> intro h <;> simp at h

lemma segStep_unchanged_right (s : Seg) (c : String) :
    SegStep s ⟨.unchanged, c⟩ := by
  constructor <;> intro _ <;> simp

lemma blockChain_sizes {a b : List String} :
    ∀ {blocks : List (Nat × Nat × Nat)} {lo1 lo2 hi1 hi2 : Nat},
      BlockChain a b lo1 lo2 hi1 hi2 blocks → ∀ blk ∈ blocks, blk.2.2 ≠ 0 := by
  intro blocks
  induction blocks with
  | nil => intro _ _ _ _ _ blk h; simp at h
  | cons hd rest ih =>
    obtain ⟨bi, bj, k⟩ := hd
    intro lo1 lo2 hi1 hi2 hc blk hmem
    obtain ⟨hk, _, _, _, _, _, hrest⟩ := hc
    rcases List.mem_cons.mp hmem with rfl | hmem
    · simp only; omega
    · exact ih hrest blk hmem

lemma segStep_removed_added (c d : String) :
    SegStep ⟨.removed, c⟩ ⟨.added, d⟩ := by
  constructor
  · intro _; simp
  · intro h; simp at h

lemma render_chain (ow ew : List String) :
    ∀ (blocks : List (Nat × Nat × Nat)) (i0 j0 la lb : Nat),
      (∀ blk ∈ blocks, blk.2.2 ≠ 0) →
      List.Chain' SegStep
        (((opcodesLoop i0 j0 (blocks ++ [(la, lb, 0)])).map
          (renderOp ow ew)).flatten) := by
  intro blocks
  induction blocks with
  | nil =>
    intro i0 j0 la lb _
    simp only [List.nil_append, opcodesLoop, List.append_nil]
    rw [if_neg (by omega : ¬ (0:Nat) ≠ 0)]
    by_cases h1 : i0 < la
    · by_cases h2 : j0 < lb
      · rw [gapTag_replace h1 h2]
        show List.Chain' SegStep
          [⟨.removed, joinWords (slice ow i0 la)⟩, ⟨.added, joinWords (slice ew j0 lb)⟩]
        refine List.chain'_cons.mpr ⟨segStep_removed_added _ _, List.chain'_singleton _⟩
      · rw [gapTag_delete h1 h2]
        show List.Chain' SegStep [⟨.removed, joinWords (slice ow i0 la)⟩]
        exact List.chain'_singleton _
    · by_cases h2 : j0 < lb
      · rw [gapTag_insert h1 h2]
        show List.Chain' SegStep [⟨.added, joinWords (slice ew j0 lb)⟩]
        exact List.chain'_singleton _
      · rw [gapTag_none h1 h2]
        show List.Chain' SegStep []
        exact List.chain'_nil
  | cons blk rest ih =>
    obtain ⟨bi, bj, k⟩ := blk
    intro i0 j0 la lb hsz
    have hk : k ≠ 0 := hsz (bi, bj, k) (List.mem_cons_self _ _)
    have ihc := ih (bi + k) (bj + k) la lb
      (fun blk2 hb => hsz blk2 (List.mem_cons_of_mem _ hb))
    by_cases h1 : i0 < bi
    · by_cases h2 : j0 < bj
      · have hshape : ((opcodesLoop i0 j0 (((bi, bj, k) :: rest)
            ++ [(la, lb, 0)])).map (renderOp ow ew)).flatten
            = ⟨.removed, joinWords (slice ow i0 bi)⟩ ::
              ⟨.added, joinWords (slice ew j0 bj)⟩ ::
              ⟨.unchanged, joinWords (slice ow bi (bi + k))⟩ ::
              ((opcodesLoop (bi + k) (bj + k) (rest ++ [(la, lb, 0)])).map
                (renderOp ow ew)).flatten := by
          simp only [List.cons_append, opcodesLoop]
          rw [if_pos hk, gapTag_replace h1 h2]
          rfl
        rw [hshape]
        refine List.chain'_cons.mpr ⟨segStep_removed_added _ _, ?_⟩
        refine List.chain'_cons.mpr ⟨segStep_unchanged_right _ _, ?_⟩
        refine List.chain'_cons'.mpr ⟨?_, ihc⟩
        intro y _
        exact segStep_unchanged_left _ y
      · have hshape : ((opcodesLoop i0 j0 (((bi, bj, k) :: rest)
            ++ [(la, lb, 0)])).map (renderOp ow ew)).flatten
            = ⟨.removed, joinWords (slice ow i0 bi)⟩ ::
              ⟨.unchanged, joinWords (slice ow bi (bi + k))⟩ ::
              ((opcodesLoop (bi + k) (bj + k) (rest ++ [(la, lb, 0)])).map
                (renderOp ow ew)).flatten := by
          simp only [List.cons_append, opcodesLoop]
          rw [if_pos hk, gapTag_delete h1 h2]
          rfl
        rw [hshape]
        refine List.chain'_cons.mpr ⟨segStep_unchanged_right _ _, ?_⟩
        refine List.chain'_cons'.mpr ⟨?_, ihc⟩
        intro y _
        exact segStep_unchanged_left _ y
    · by_cases h2 : j0 < bj
      · have hshape : ((opcodesLoop i0 j0 (((bi, bj, k) :: rest)
            ++ [(la, lb, 0)])).map (renderOp ow ew)).flatten
            = ⟨.added, joinWords (slice ew j0 bj)⟩ ::
              ⟨.unchanged, joinWords (slice ow bi (bi + k))⟩ ::
              ((opcodesLoop (bi + k) (bj + k) (rest ++ [(la, lb, 0)])).map
                (renderOp ow ew)).flatten := by
          simp only [List.cons_append, opcodesLoop]
          rw [if_pos hk, gapTag_insert h1 h2]
          rfl
        rw [hshape]
        refine List.chain'_cons.mpr ⟨segStep_unchanged_right _ _, ?_⟩
        refine List.chain'_cons'.mpr ⟨?_, ihc⟩
        intro y _
        exact segStep_unchanged_left _ y
      · have hshape : ((opcodesLoop i0 j0 (((bi, bj, k) :: rest)
            ++ [(la, lb, 0)])).map (renderOp ow ew)).flatten
            = ⟨.unchanged, joinWords (slice ow bi (bi + k))⟩ ::
              ((opcodesLoop (bi + k) (bj + k) (rest ++ [(la, lb, 0)])).map
                (renderOp ow ew)).flatten := by
          simp only [List.cons_append, opcodesLoop]
          rw [if_pos hk, gapTag_none h1 h2]
          rfl
        rw [hshape]
        refine List.chain'_cons'.mpr ⟨?_, ihc⟩
        intro y _
        exact segStep_unchanged_left _ y

/-- Every layered diff output satisfies the adjacency discipline. -/
lemma compute_diff_chain (A B : String) :
    List.Chain' SegStep (compute_diff A B) := by
  show List.Chain' SegStep
    (((opcodesLoop 0 0 (mergeLoop (0, 0, 0) (matchingBlocks false (pySplit A)
        (pySplit B) 0 (pySplit A).length 0 (pySplit B).length)
      ++ [((pySplit A).length, (pySplit B).length, 0)])).map
        (renderOp (pySplit A) (pySplit B))).flatten)
  exact render_chain (pySplit A) (pySplit B) _ 0 0 _ _
    (blockChain_sizes (getMatchingBlocks_chain false (pySplit A) (pySplit B)))

/-! ### Legacy and layered diff agree when autojunk is inert -/

lemma b2j_small {b : List String} (hb : b.length < 200) (x : String) :
    b2j true b x = b2j false b x := by
  simp only [b2j]
  rw [if_neg, if_neg]
  · intro h
    simp at h
  · intro h
    exact absurd h.2.1 (by omega)

lemma dpLoop_small {a b : List String} (hb : b.length < 200) (blo bhi : Nat) :
    ∀ (rows : List Nat) (f : Nat → Nat) (best : Best),
      dpLoop true a b blo bhi rows f best = dpLoop false a b blo bhi rows f best := by
  intro rows
  induction rows with
  | nil => intro f best; rfl
  | cons i rows ih =>
    intro f best
    simp only [dpLoop, b2j_small hb]
    rcases innerLoop i f ((b2j false b (a.getD i "")).filter
        (fun j => decide (blo ≤ j ∧ j < bhi))) (fun _ => 0) best with ⟨g, best2⟩
    exact ih g best2

lemma findLongestMatch_small {a b : List String} (hb : b.length < 200)
    (alo ahi blo bhi : Nat) :
    findLongestMatch true a b alo ahi blo bhi
      = findLongestMatch false a b alo ahi blo bhi := by
  simp only [findLongestMatch, dpLoop_small hb]

lemma matchingBlocksAux_small {a b : List String} (hb : b.length < 200) :
    ∀ (fuel alo ahi blo bhi : Nat),
      matchingBlocksAux true a b fuel alo ahi blo bhi
        = matchingBlocksAux false a b fuel alo ahi blo bhi := by
  intro fuel
  induction fuel with
  | zero => intro _ _ _ _; rfl
  | succ fuel ih =>
    intro alo ahi blo bhi
    simp only [matchingBlocksAux, findLongestMatch_small hb, ih]

lemma getOpcodes_small {a b : List String} (hb : b.length < 200) :
    getOpcodes true a b = getOpcodes false a b := by
  simp only [getOpcodes, getMatchingBlocks, matchingBlocks, matchingBlocksAux_small hb]

/-- The tag/field renaming between legacy `{type, text}` segments
(`equal`/`insert`/`delete`) and layered `{type, content}` segments
(`unchanged`/`added`/`removed`). -/
def toLayered (s : LegacySeg) : Seg :=
  match s.type with
  | .equal => ⟨.unchanged, s.text⟩
  | .insert => ⟨.added, s.text⟩
  | .delete => ⟨.removed, s.text⟩

lemma legacyRenderOp_toLayered (ow ew : List String)
    (op : PyTag × Nat × Nat × Nat × Nat) :
    (legacyRenderOp ow ew op).map toLayered = renderOp ow ew op := by
  obtain ⟨t, i1, i2, j1, j2⟩ := op
  cases t <;> rfl

/-- Whenever the enhanced text has fewer than 200 words, autojunk never
fires, and the two `compute_diff`s agree up to the tag/field renaming. -/
lemma compute_diff_equiv (A B : String) (hb : (pySplit B).length < 200) :
    (legacy_compute_diff A B).map toLayered = compute_diff A B := by
  show (((getOpcodes true (pySplit A) (pySplit B)).map
      (legacyRenderOp (pySplit A) (pySplit B))).flatten).map toLayered
    = ((getOpcodes false (pySplit A) (pySplit B)).map
      (renderOp (pySplit A) (pySplit B))).flatten
  rw [getOpcodes_small hb, List.map_flatten, List.map_map]
  congr 1
  apply List.map_congr_left
  intro op _
  exact legacyRenderOp_toLayered _ _ op

/-! ## Claim theorems for the diff engine (C5, C6, C7, C10) -/

set_option maxRecDepth 100000

/-- C5 counterexample: the claim says the concatenated `unchanged`+`removed`
contents reconstruct A for all texts; with A = B = `"a  b"` (double space)
the reconstruction is `"a b"`, not A, because `compute_diff` splits on
whitespace and re-joins words with single spaces. -/
theorem c5_counterexample :
    joinWords ((compute_diff "a  b" "a  b").filterMap origContent) = "a b" ∧
    joinWords ((compute_diff "a  b" "a  b").filterMap origContent) ≠ "a  b" := by
  constructor <;> decide

/-- C5 (amended): for all texts A and B, joining the original-side contents
(`unchanged` + `removed`) of `compute_diff A B` with single spaces
reconstructs the whitespace-normalised A (A's words joined by single
spaces), and joining the `unchanged` + `added` contents reconstructs the
normalised B; exact reconstruction holds precisely for texts already in
that normal form. -/
theorem c5_diff_roundtrip_normalized (A B : String) :
    joinWords ((compute_diff A B).filterMap origContent) = joinWords (pySplit A) ∧
    joinWords ((compute_diff A B).filterMap newContent) = joinWords (pySplit B) :=
  compute_diff_reconstruct A B

/-- C6: a replacement opcode renders as exactly two segments, `removed`
followed by `added` (first conjunct); every diff output obeys the adjacency
discipline — after a `removed` segment never another `removed`, after an
`added` segment only an `unchanged` one or the end of the list, so
replacements are never interleaved token-by-token (second conjunct); and
the concrete scenario for "The cat sat on the mat" → "The feline sat on
the rug" yields exactly the six segments the claim lists, in order (third
conjunct). -/
theorem c6_replacement_rendering :
    (∀ (ow ew : List String) (i1 i2 j1 j2 : Nat),
      renderOp ow ew (.replace, i1, i2, j1, j2)
        = [⟨.removed, joinWords (slice ow i1 i2)⟩,
           ⟨.added, joinWords (slice ew j1 j2)⟩]) ∧
    (∀ A B : String, List.Chain' SegStep (compute_diff A B)) ∧
    compute_diff "The cat sat on the mat" "The feline sat on the rug" =
      [⟨.unchanged, "The"⟩, ⟨.removed, "cat"⟩, ⟨.added, "feline"⟩,
       ⟨.unchanged, "sat on the"⟩, ⟨.removed, "mat"⟩, ⟨.added, "rug"⟩] := by
  refine ⟨fun _ _ _ _ _ _ => rfl, compute_diff_chain, ?_⟩
  decide

/-- C7 counterexample: `" "` is a non-empty string, yet `diff(" ", " ")`
returns no segments at all (both sides split to zero words), not one
`unchanged` segment equal to the input. -/
theorem c7_counterexample :
    " " ≠ "" ∧ compute_diff " " " " = [] := by
  constructor <;> decide

/-- C7 (amended): for every string A with at least one word,
`compute_diff A A` is exactly one `unchanged` segment holding A's words
joined by single spaces (equal to A whenever A is whitespace-normalised);
when A splits to no words — in particular when both inputs are empty — the
result is the empty segment sequence. -/
theorem c7_diff_identity (A : String) :
    (pySplit A ≠ [] → compute_diff A A = [⟨.unchanged, joinWords (pySplit A)⟩]) ∧
    (pySplit A = [] → compute_diff A A = []) :=
  compute_diff_self A

theorem c7_diff_identity_witness :
    (pySplit "hello world" ≠ [] ∧
      compute_diff "hello world" "hello world" = [⟨.unchanged, "hello world"⟩]) ∧
    (pySplit "" = [] ∧ compute_diff "" "" = []) := by
  refine ⟨⟨by decide, ?_⟩, ⟨by decide, ?_⟩⟩
  · have h := (c7_diff_identity "hello world").1 (by decide)
    rw [h]
    decide
  · exact (c7_diff_identity "").2 (by decide)

/-- The 200-word enhanced text of the C10 counterexample: 196 distinct
filler words followed by four copies of "x"; "x" then occurs more than
`200 // 100 + 1 = 3` times, so the legacy matcher's autojunk discards it
from `b2j` while the layered matcher (autojunk=False) keeps it. -/
def autojunkEnhanced : String :=
  joinWords ((List.range 196).map (fun i => "w" ++ toString i) ++ ["x", "x", "x", "x"])

/-- C10 counterexample: on original `"x"` and the 200-word
`autojunkEnhanced`, the legacy diff yields 2 segments (delete + insert) and
the layered diff yields 3 (added + unchanged + added), so the outputs are
not identical up to renaming. -/
theorem c10_counterexample :
    (legacy_compute_diff "x" autojunkEnhanced).map toLayered
      ≠ compute_diff "x" autojunkEnhanced := by
  intro h
  have h2 := congrArg List.length h
  have hl : ((legacy_compute_diff "x" autojunkEnhanced).map toLayered).length = 2 := by
    decide
  have hr : (compute_diff "x" autojunkEnhanced).length = 3 := by
    decide
  rw [hl, hr] at h2
  exact absurd h2 (by decide)

/-- C10 (amended): whenever the enhanced text splits into fewer than 200
words, the autojunk heuristic of the legacy matcher is inert and the two
`compute_diff` implementations produce identical segment sequences up to
renaming of the tags (equal/unchanged, insert/added, delete/removed) and of
the text field key. -/
theorem c10_diff_equivalence (A B : String) (hb : (pySplit B).length < 200) :
    (legacy_compute_diff A B).map toLayered = compute_diff A B :=
  compute_diff_equiv A B hb

theorem c10_diff_equivalence_witness :
    (pySplit "b c d").length < 200 ∧
    (legacy_compute_diff "a b c" "b c d").map toLayered
      = compute_diff "a b c" "b c d" :=
  ⟨by decide, c10_diff_equivalence "a b c" "b c d" (by decide)⟩

/-! ## Credit ledger protocol: route models

Each metered route is embedded as a pure function of the request, the
user's starting balance, and the outcomes of the external collaborators
(the generation call, the audit-log write).  The returned record carries
the HTTP-level response, the final balance, the number of audit records
written, and an event trace listing the side-effecting steps in program
order.  Balances are `Int` (the stores' integer columns), and the refund
path keeps the literal `- cost + cost` shape of deduct-then-refund. -/

/-- Observable side-effecting steps of a metered route, in program order. -/
inductive Ev
  | reserve (ok : Bool)
  | llmCall
  | refund
  | audit
deriving Repr, DecidableEq

/-- The keys of the legacy `PERSONAS` table in `app.py`. -/
def PERSONAS : List String :=
  ["technical", "business", "finance", "simplified", "comedian", "poet"]

/-- The persona entry actually used by the helpers `enhance_with_persona`
(legacy, `PERSONAS.get(persona_key, PERSONAS["simplified"])`) and
`enhance_text` (layered, `PERSONA_PROMPTS.get(persona, ...["simplified"])`),
modelled as the key of the selected entry: the requested key when present,
`"simplified"` otherwise. -/
def resolvePersona (personaKey : String) : String :=
  if personaKey ∈ PERSONAS then personaKey else "simplified"

/-- Responses of the legacy Flask routes, with exactly the fields their
JSON bodies carry (the 402 body is
`{"error": "Insufficient credits", "credits_required": n}` — it has no
field for the user's current balance). -/
inductive LegacyResp
  | badRequest (msg : String)
  | insufficientCredits (creditsRequired : Nat)
  | aiError (msg : String)
  | enhanced (enhancedText : String) (diff : List LegacySeg) (creditsUsed : Nat)
  | analysis (creditsUsed : Nat)
deriving Repr, DecidableEq

/-- Final observable state of one legacy route invocation. -/
structure RouteResult where
  resp : LegacyResp
  balance : Int
  audits : Nat
  events : List Ev
deriving Repr, DecidableEq

/-- Embeds `app.py::persona_enhance` (legacy Flask route, cost 1): validate text,
reject unknown personas with a 400, deduct one credit, call the
collaborator (`downstream` is the outcome of `enhance_with_persona`, with
`.error` for any raised exception), refund on failure, audit on success.
The saved document id and change list do not affect the claims and are
omitted from the response model. -/
def persona_enhance (text personaKey : String) (balance : Int)
    (downstream : Except String String) : RouteResult :=
  if text = "" then ⟨.badRequest "text is required", balance, 0, []⟩
  else if 50000 < text.length then
    ⟨.badRequest "Text too long (max 50,000 characters)", balance, 0, []⟩
  else if personaKey ∉ PERSONAS then
    ⟨.badRequest "Unknown persona", balance, 0, []⟩
  else if balance < 1 then
    ⟨.insufficientCredits 1, balance, 0, [.reserve false]⟩
  else
    match downstream with
    | .error e => ⟨.aiError e, balance - 1 + 1, 0, [.reserve true, .llmCall, .refund]⟩
    | .ok enhancedText =>
        ⟨.enhanced enhancedText (legacy_compute_diff text enhancedText) 1,
          balance - 1, 1, [.reserve true, .llmCall, .audit]⟩

/-- Embeds `app.py::generate_mindmap_route` (legacy Flask route, cost 2):
validate text bounds, deduct two credits, run `generate_mindmap`
(`downstream`), refund on failure, audit on success. -/
def generate_mindmap_route (text : String) (balance : Int)
    (downstream : Except String Unit) : RouteResult :=
  if text = "" then ⟨.badRequest "text is required", balance, 0, []⟩
  else if text.length < 100 then
    ⟨.badRequest "Text too short (min 100 characters)", balance, 0, []⟩
  else if 30000 < text.length then
    ⟨.badRequest "Text too long (max 30,000 characters)", balance, 0, []⟩
  else if balance < 2 then
    ⟨.insufficientCredits 2, balance, 0, [.reserve false]⟩
  else
    match downstream with
    | .error e => ⟨.aiError e, balance - 2 + 2, 0, [.reserve true, .llmCall, .refund]⟩
    | .ok _ => ⟨.analysis 2, balance - 2, 1, [.reserve true, .llmCall, .audit]⟩

/-- Embeds `models/schemas.py::PersonaEnum`: the six valid persona values. -/
inductive PersonaEnum
  | technical
  | business
  | finance
  | simplified
  | comedian
  | poet
deriving Repr, DecidableEq

/-- Pydantic validation of the `persona` field of `EnhanceRequest`: only
the six enum strings construct a value; any other string fails request
validation before the route body runs. -/
def personaOfString (s : String) : Option PersonaEnum :=
  if s = "technical" then some .technical
  else if s = "business" then some .business
  else if s = "finance" then some .finance
  else if s = "simplified" then some .simplified
  else if s = "comedian" then some .comedian
  else if s = "poet" then some .poet
  else none

/-- Responses of the layered FastAPI routers: the 402 detail is
`{"error": "insufficient_credits", "credits_needed": n,
"current_credits": m}` — it reports both numbers. -/
inductive ApiResp
  | validationError
  | insufficientCredits (creditsNeeded : Nat) (currentCredits : Int)
  | serverError (msg : String)
  | okJson (creditsRemaining : Int)
  | okStream
deriving Repr, DecidableEq

/-- Server-sent events of the streaming enhance endpoint. -/
inductive SSE
  | token (t : String)
  | final (diff : List Seg) (creditsRemaining : Int)
  | errorEvent (msg : String)
deriving Repr, DecidableEq

/-- Final observable state of one layered route invocation. -/
structure ApiResult where
  resp : ApiResp
  sse : List SSE
  balance : Int
  audits : Nat
  events : List Ev
deriving Repr, DecidableEq

/-- Embeds `routers/enhance.py::enhance` together with its `event_generator`
(cost 1): deduct first (402 with needed and current credits on failure),
then stream tokens; `streamed` is the list of tokens the collaborator
yields, `streamErr` an exception raised by the stream after them, and
`logErr` an exception raised by `log_analysis` — both are caught by the
generator's single `except`, which refunds and emits an error event.  The
final SSE event carries the diff and the post-deduction balance read back
from the store. -/
def enhance (text : String) (persona : PersonaEnum) (balance : Int)
    (streamed : List String) (streamErr : Option String)
    (logErr : Option String) : ApiResult :=
  if balance < 1 then
    ⟨.insufficientCredits 1 balance, [], balance, 0, [.reserve false]⟩
  else
    match streamErr with
    | some e =>
        ⟨.okStream, (streamed.map SSE.token) ++ [.errorEvent e],
          balance - 1 + 1, 0, [.reserve true, .llmCall, .refund]⟩
    | none =>
        match logErr with
        | some e =>
            ⟨.okStream, (streamed.map SSE.token) ++ [.errorEvent e],
              balance - 1 + 1, 0, [.reserve true, .llmCall, .refund]⟩
        | none =>
            ⟨.okStream,
              (streamed.map SSE.token)
                ++ [.final (compute_diff text (String.join streamed)) (balance - 1)],
              balance - 1, 1, [.reserve true, .llmCall, .audit]⟩

/-- The HTTP entry for the layered enhance endpoint: pydantic validates
`text` (10–20000 characters) and `persona` (enum) before the handler
runs. -/
def enhanceEntry (text personaRaw : String) (balance : Int)
    (streamed : List String) (streamErr : Option String)
    (logErr : Option String) : ApiResult :=
  if text.length < 10 ∨ 20000 < text.length then ⟨.validationError, [], balance, 0, []⟩
  else
    match personaOfString personaRaw with
    | none => ⟨.validationError, [], balance, 0, []⟩
    | some p => enhance text p balance streamed streamErr logErr

/-- Embeds `routers/consistency.py::consistency` (cost 2): pydantic bounds, deduct,
run the LLM and parse its JSON (`downstream`, both inside the `try`:
failure refunds and returns a 500), read the remaining balance, then
`log_analysis` — which is *outside* any handler, so `logErr` propagates as
an unhandled 500 after the debit, with no refund and no audit record. -/
def consistency (text : String) (balance : Int)
    (downstream : Except String Unit) (logErr : Option String) : ApiResult :=
  if text.length < 10 ∨ 30000 < text.length then ⟨.validationError, [], balance, 0, []⟩
  else if balance < 2 then
    ⟨.insufficientCredits 2 balance, [], balance, 0, [.reserve false]⟩
  else
    match downstream with
    | .error e =>
        ⟨.serverError ("Consistency scan failed: " ++ e), [],
          balance - 2 + 2, 0, [.reserve true, .llmCall, .refund]⟩
    | .ok _ =>
        match logErr with
        | some e => ⟨.serverError e, [], balance - 2, 0, [.reserve true, .llmCall]⟩
        | none => ⟨.okJson (balance - 2), [], balance - 2, 1,
            [.reserve true, .llmCall, .audit]⟩

/-- Embeds `routers/mindmap.py::mindmap` (cost 2): same ledger pattern as the
consistency router (`log_analysis` outside the `try` as well). -/
def mindmap_route (text : String) (balance : Int)
    (downstream : Except String Unit) (logErr : Option String) : ApiResult :=
  if text.length < 10 ∨ 30000 < text.length then ⟨.validationError, [], balance, 0, []⟩
  else if balance < 2 then
    ⟨.insufficientCredits 2 balance, [], balance, 0, [.reserve false]⟩
  else
    match downstream with
    | .error e =>
        ⟨.serverError ("Mindmap generation failed: " ++ e), [],
          balance - 2 + 2, 0, [.reserve true, .llmCall, .refund]⟩
    | .ok _ =>
        match logErr with
        | some e => ⟨.serverError e, [], balance - 2, 0, [.reserve true, .llmCall]⟩
        | none => ⟨.okJson (balance - 2), [], balance - 2, 1,
            [.reserve true, .llmCall, .audit]⟩

/-! ## Claim theorems for the credit ledger (C1, C2, C3, C9) -/

/-- C1: for the legacy persona route (cost 1) and the layered mindmap
router (cost 2), once a request passes validation and the reservation
covers the cost: a successful downstream call ends with the balance down
by exactly the cost and one audit record written; a failed downstream call
ends with the balance exactly restored (net change 0), no audit record,
and exactly one refund — never a partial debit and never a double
refund. -/
theorem c1_credit_conservation
    (text personaKey payload e body e2 : String) (b b2 : Int) (lf : Option String)
    (h1 : text ≠ "") (h2 : text.length ≤ 50000) (h3 : personaKey ∈ PERSONAS)
    (h4 : 1 ≤ b) (h5 : 10 ≤ body.length) (h6 : body.length ≤ 30000) (h7 : 2 ≤ b2) :
    ((persona_enhance text personaKey b (.ok payload)).balance = b - 1 ∧
     (persona_enhance text personaKey b (.ok payload)).audits = 1 ∧
     (persona_enhance text personaKey b (.error e)).balance = b ∧
     (persona_enhance text personaKey b (.error e)).audits = 0 ∧
     (persona_enhance text personaKey b (.error e)).events.count .refund = 1) ∧
    ((mindmap_route body b2 (.ok ()) lf).balance = b2 - 2 ∧
     (mindmap_route body b2 (.error e2) lf).balance = b2 ∧
     (mindmap_route body b2 (.error e2) lf).audits = 0 ∧
     (mindmap_route body b2 (.error e2) lf).events.count .refund = 1) := by
  constructor
  · simp only [persona_enhance, if_neg h1,
      if_neg (show ¬ 50000 < text.length by omega),
      if_neg (not_not_intro h3), if_neg (show ¬ b < 1 by omega)]
    refine ⟨?_, ?_, ?_, ?_, ?_⟩ <;> first | trivial | omega | decide
  · simp only [mindmap_route,
      if_neg (show ¬ (body.length < 10 ∨ 30000 < body.length) by omega),
      if_neg (show ¬ b2 < 2 by omega)]
    cases lf with
    | none => refine ⟨?_, ?_, ?_, ?_⟩ <;> first | trivial | omega | decide
    | some m => refine ⟨?_, ?_, ?_, ?_⟩ <;> first | trivial | omega | decide

theorem c1_credit_conservation_witness :
    (persona_enhance "hi" "simplified" 5 (Except.error "boom")).balance = 5 ∧
    (persona_enhance "hi" "simplified" 5 (Except.error "boom")).audits = 0 := by
  have h := c1_credit_conservation "hi" "simplified" "out" "boom" "0123456789"
    "boom2" 5 5 none (by decide) (by decide) (by decide) (by decide) (by decide)
    (by decide) (by decide)
  exact ⟨h.1.2.2.1, h.1.2.2.2.1⟩

/-- Concrete text of length 100 for the legacy mindmap route. -/
def mindmapText : String := String.mk (List.replicate 100 'a')

/-- C2 counterexample: the legacy insufficiency response is byte-identical
for current balances 0 and 1 (cost-2 mindmap route), so it cannot be
reporting the user's current credits — its body carries only
`credits_required`. -/
theorem c2_counterexample :
    (generate_mindmap_route mindmapText 0 (.ok ())).resp
        = .insufficientCredits 2 ∧
    (generate_mindmap_route mindmapText 1 (.ok ())).resp
        = .insufficientCredits 2 ∧
    (generate_mindmap_route mindmapText 0 (.ok ())).resp
        = (generate_mindmap_route mindmapText 1 (.ok ())).resp ∧
    (0 : Int) ≠ 1 := by
  refine ⟨by decide, by decide, by decide, by decide⟩

/-- C2 (amended): in every modelled metered entry point a collaborator call
happens only after a successful reservation (whenever `llmCall` is in the
trace, the trace starts with `reserve true`); when the reservation fails,
the collaborator is never invoked, the balance is unchanged, and the caller
receives the insufficient-credits error carrying the credits needed — the
layered routers additionally carry the current credits, while the legacy
routes carry only the required amount. -/
theorem c2_reservation_gate
    (text personaKey body body2 : String) (b b2 : Int) (ds : Except String String)
    (p : PersonaEnum) (toks : List String) (serr lerr lerr2 : Option String)
    (ds2 : Except String Unit) :
    (Ev.llmCall ∈ (persona_enhance text personaKey b ds).events →
      (persona_enhance text personaKey b ds).events.head? = some (.reserve true)) ∧
    (Ev.llmCall ∈ (enhance body p b toks serr lerr).events →
      (enhance body p b toks serr lerr).events.head? = some (.reserve true)) ∧
    (Ev.llmCall ∈ (mindmap_route body2 b2 ds2 lerr2).events →
      (mindmap_route body2 b2 ds2 lerr2).events.head? = some (.reserve true)) ∧
    (text ≠ "" → text.length ≤ 50000 → personaKey ∈ PERSONAS → b < 1 →
      (persona_enhance text personaKey b ds).resp = .insufficientCredits 1 ∧
      (persona_enhance text personaKey b ds).balance = b ∧
      Ev.llmCall ∉ (persona_enhance text personaKey b ds).events) ∧
    (b < 1 →
      (enhance body p b toks serr lerr).resp = .insufficientCredits 1 b ∧
      (enhance body p b toks serr lerr).balance = b ∧
      Ev.llmCall ∉ (enhance body p b toks serr lerr).events) ∧
    (10 ≤ body2.length → body2.length ≤ 30000 → b2 < 2 →
      (mindmap_route body2 b2 ds2 lerr2).resp = .insufficientCredits 2 b2 ∧
      (mindmap_route body2 b2 ds2 lerr2).balance = b2 ∧
      Ev.llmCall ∉ (mindmap_route body2 b2 ds2 lerr2).events) := by
  refine ⟨?_, ?_, ?_, ?_, ?_, ?_⟩
  · simp only [persona_enhance]
    split_ifs <;> cases ds <;> simp
  · simp only [enhance]
    split_ifs <;> rcases serr with _ | e <;> rcases lerr with _ | e2 <;> simp
  · simp only [mindmap_route]
    split_ifs <;> cases ds2 <;> rcases lerr2 with _ | e2 <;> simp
  · intro h1 h2 h3 h4
    simp only [persona_enhance, if_neg h1,
      if_neg (show ¬ 50000 < text.length by omega),
      if_neg (not_not_intro h3), if_pos h4]
    refine ⟨?_, ?_, ?_⟩ <;> first | trivial | decide
  · intro h4
    simp only [enhance, if_pos h4]
    refine ⟨?_, ?_, ?_⟩ <;> first | trivial | decide
  · intro h5 h6 h7
    simp only [mindmap_route,
      if_neg (show ¬ (body2.length < 10 ∨ 30000 < body2.length) by omega),
      if_pos h7]
    refine ⟨?_, ?_, ?_⟩ <;> first | trivial | decide

theorem c2_reservation_gate_witness :
    ((persona_enhance "hi" "simplified" 0 (.ok "x")).resp
        = .insufficientCredits 1 ∧
      (persona_enhance "hi" "simplified" 0 (.ok "x")).balance = 0 ∧
      Ev.llmCall ∉ (persona_enhance "hi" "simplified" 0 (.ok "x")).events) ∧
    ((mindmap_route "0123456789" 1 (.ok ()) none).resp
        = .insufficientCredits 2 1 ∧
      (mindmap_route "0123456789" 1 (.ok ()) none).balance = 1 ∧
      Ev.llmCall ∉ (mindmap_route "0123456789" 1 (.ok ()) none).events) := by
  have h := c2_reservation_gate "hi" "simplified" "0123456789" "0123456789" 0 1
    (.ok "x") .simplified [] none none none (.ok ())
  exact ⟨h.2.2.2.1 (by decide) (by decide) (by decide) (by decide),
    h.2.2.2.2.2 (by decide) (by decide) (by decide)⟩

/-- C3 counterexample: in the streaming enhance router, when the audit-log
write fails after a successful debit and a successfully completed stream,
the generic `except` handler refunds the reservation (final balance is the
starting balance again, refund count 1) and emits an error event as the
last stream event instead of reporting success. -/
theorem c3_counterexample :
    (enhance "some input" .simplified 5 ["out"] none (some "db down")).balance = 5 ∧
    (enhance "some input" .simplified 5 ["out"] none
      (some "db down")).events.count .refund = 1 ∧
    (enhance "some input" .simplified 5 ["out"] none (some "db down")).sse.getLast?
      = some (.errorEvent "db down") ∧
    (enhance "some input" .simplified 5 ["out"] none (some "db down")).audits = 0 := by
  refine ⟨by decide, by decide, by decide, by decide⟩

/-- C3 (amended): a failing audit-log write after successful debit and
successful downstream work is not swallowed by either layered router.  In
the streaming enhance router it is caught by the same handler as stream
failures: the reservation is refunded and the last stream event is an
error event (no audit record).  In the consistency router the write is
outside any handler: the failure propagates as a 500, with no refund (the
user stays charged) and no audit record. -/
theorem c3_logging_failure
    (text body : String) (p : PersonaEnum) (b b2 : Int) (toks : List String)
    (m m2 : String)
    (h1 : 1 ≤ b) (h3 : 10 ≤ body.length) (h4 : body.length ≤ 30000) (h7 : 2 ≤ b2) :
    ((enhance text p b toks none (some m)).balance = b ∧
     (enhance text p b toks none (some m)).audits = 0 ∧
     (enhance text p b toks none (some m)).events.count .refund = 1 ∧
     (enhance text p b toks none (some m)).sse.getLast? = some (.errorEvent m)) ∧
    ((consistency body b2 (.ok ()) (some m2)).resp = .serverError m2 ∧
     (consistency body b2 (.ok ()) (some m2)).balance = b2 - 2 ∧
     (consistency body b2 (.ok ()) (some m2)).audits = 0 ∧
     (consistency body b2 (.ok ()) (some m2)).events.count .refund = 0) := by
  constructor
  · simp only [enhance, if_neg (show ¬ b < 1 by omega)]
    refine ⟨?_, ?_, ?_, ?_⟩
    · omega
    · trivial
    · decide
    · rw [List.getLast?_concat]
  · simp only [consistency,
      if_neg (show ¬ (body.length < 10 ∨ 30000 < body.length) by omega),
      if_neg (show ¬ b2 < 2 by omega)]
    refine ⟨?_, ?_, ?_, ?_⟩ <;> first | trivial | omega | decide

theorem c3_logging_failure_witness :
    ((enhance "t" .poet 7 ["a", "b"] none (some "log down")).balance = 7 ∧
      (enhance "t" .poet 7 ["a", "b"] none (some "log down")).audits = 0) ∧
    ((consistency "0123456789" 9 (.ok ()) (some "log down")).resp
        = .serverError "log down" ∧
      (consistency "0123456789" 9 (.ok ()) (some "log down")).balance = 7) := by
  have h := c3_logging_failure "t" "0123456789" .poet 7 9 ["a", "b"]
    "log down" "log down" (by decide) (by decide) (by decide) (by decide)
  exact ⟨⟨h.1.1, h.1.2.1⟩, ⟨h.2.1, by rw [h.2.2.1]; decide⟩⟩

/-- C9 counterexample: the legacy single-file route does *not* default an
unrecognized personaKey to the simplified persona — it rejects it with a
400 before any credit deduction or collaborator call. -/
theorem c9_counterexample :
    (persona_enhance "hi" "pirate" 5 (.ok "styled")).resp
        = .badRequest "Unknown persona" ∧
    (persona_enhance "hi" "pirate" 5 (.ok "styled")).events = [] ∧
    (persona_enhance "hi" "pirate" 5 (.ok "styled")).balance = 5 := by
  refine ⟨by decide, by decide, by decide⟩

/-- C9 (amended): both variants reject an unrecognized persona before any
work — the legacy route with a 400 (no deduction, no collaborator call),
the layered variant at request validation (the `PersonaEnum` field fails
to parse, the handler never runs).  The defaulting-to-simplified behaviour
exists only in the internal helpers (`PERSONAS.get` / `PERSONA_PROMPTS.get`
with the simplified fallback), which the routes never reach with an
unrecognized persona. -/
theorem c9_persona_policy (personaKey text payload : String) (b : Int)
    (toks : List String) (serr lerr : Option String)
    (hpk : personaKey ∉ PERSONAS) (htext : text ≠ "") (hlen : text.length ≤ 50000) :
    ((persona_enhance text personaKey b (.ok payload)).resp
        = .badRequest "Unknown persona" ∧
     (persona_enhance text personaKey b (.ok payload)).events = [] ∧
     (persona_enhance text personaKey b (.ok payload)).balance = b) ∧
    resolvePersona personaKey = "simplified" ∧
    personaOfString personaKey = none ∧
    ((enhanceEntry text personaKey b toks serr lerr).resp = .validationError ∧
     (enhanceEntry text personaKey b toks serr lerr).events = [] ∧
     (enhanceEntry text personaKey b toks serr lerr).balance = b) := by
  have hofs : personaOfString personaKey = none := by
    simp only [PERSONAS, List.mem_cons, List.not_mem_nil, or_false] at hpk
    push_neg at hpk
    obtain ⟨e1, e2, e3, e4, e5, e6⟩ := hpk
    simp only [personaOfString, if_neg e1, if_neg e2, if_neg e3, if_neg e4,
      if_neg e5, if_neg e6]
  refine ⟨?_, ?_, hofs, ?_⟩
  · simp only [persona_enhance, if_neg htext,
      if_neg (show ¬ 50000 < text.length by omega), if_pos hpk]
    refine ⟨?_, ?_, ?_⟩ <;> trivial
  · simp only [resolvePersona, if_neg hpk]
  · simp only [enhanceEntry]
    by_cases hv : text.length < 10 ∨ 20000 < text.length
    · rw [if_pos hv]
      refine ⟨?_, ?_, ?_⟩ <;> trivial
    · rw [if_neg hv, hofs]
      refine ⟨?_, ?_, ?_⟩ <;> trivial

theorem c9_persona_policy_witness :
    (persona_enhance "hello there" "pirate" 3 (.ok "styled")).resp
        = .badRequest "Unknown persona" ∧
    resolvePersona "pirate" = "simplified" ∧
    personaOfString "pirate" = none ∧
    (enhanceEntry "hello there" "pirate" 3 [] none none).resp = .validationError := by
  have h := c9_persona_policy "pirate" "hello there" "styled" 3 [] none none
    (by decide) (by decide) (by decide)
  exact ⟨h.1.1, h.2.1, h.2.2.1, h.2.2.2.1⟩

/-! ## C4: concurrency model of `deduct_credits`

The legacy `app.py::deduct_credits` is a separate read-then-write: it
reads the user document, checks `credits < amount`, and then issues an
unconditional `$inc` decrement.  Under concurrency the read/check and the
decrement are two distinct atomic steps.  The supabase variant delegates
to the Postgres RPC function `deduct_credits`, whose body is not in the
repository; modelled from the spec: "atomically checks balance >= cost;
if true, decrements by cost" — a single atomic conditional decrement. -/

/-- One client's progress through a `deduct_credits` call. -/
inductive ThreadState
  | pending
  | passed
  | failed
  | succeeded
deriving Repr, DecidableEq

/-- Shared state: the user's balance plus each concurrent caller's state. -/
structure LedgerState where
  balance : Int
  threads : List ThreadState
deriving Repr, DecidableEq

/-- Scheduler steps for the legacy read-then-write `deduct_credits`: each
call is two atomic pieces, the `find_one` read+check and the `$inc`
write. -/
inductive LegacyStep
  | read (tid : Nat)
  | write (tid : Nat)
deriving Repr, DecidableEq

/-- Execute one interleaved step of legacy `deduct_credits(user, amount)`. -/
def legacyStep (amount : Int) (st : LedgerState) : LegacyStep → LedgerState
  | .read tid =>
      if st.threads.getD tid .succeeded = .pending then
        if st.balance < amount then ⟨st.balance, st.threads.set tid .failed⟩
        else ⟨st.balance, st.threads.set tid .passed⟩
      else st
  | .write tid =>
      if st.threads.getD tid .succeeded = .passed then
        ⟨st.balance - amount, st.threads.set tid .succeeded⟩
      else st

def legacyRun (amount : Int) (sched : List LegacyStep) (st : LedgerState) :
    LedgerState :=
  sched.foldl (legacyStep amount) st

/-- Modelled from the spec: the database-side RPC `deduct_credits` (its SQL
body is not under src/) — a single atomic compare-and-decrement per call. -/
inductive AtomicStep
  | rpc (tid : Nat)
deriving Repr, DecidableEq

def atomicStep (amount : Int) (st : LedgerState) : AtomicStep → LedgerState
  | .rpc tid =>
      if st.threads.getD tid .succeeded = .pending then
        if st.balance < amount then ⟨st.balance, st.threads.set tid .failed⟩
        else ⟨st.balance - amount, st.threads.set tid .succeeded⟩
      else st

def atomicRun (amount : Int) (sched : List AtomicStep) (st : LedgerState) :
    LedgerState :=
  sched.foldl (atomicStep amount) st

/-- C4: the claim's scenario with N = 2 concurrent reserves of cost C = 2
against a balance of exactly `C*(N-1)+1 = 3`.  The legacy read-then-write
implementation admits the interleaving read₀ read₁ write₀ write₁ in which
*both* reservations succeed and the balance goes negative, violating
"exactly N-1 succeed and 1 fails, regardless of interleaving"; the atomic
compare-and-decrement modelled from the spec gives exactly one success
under either ordering. -/
theorem c4_nonatomic_interleaving :
    (legacyRun 2 [.read 0, .read 1, .write 0, .write 1]
        ⟨3, [.pending, .pending]⟩).threads.count .succeeded = 2 ∧
    (legacyRun 2 [.read 0, .read 1, .write 0, .write 1]
        ⟨3, [.pending, .pending]⟩).balance = -1 ∧
    (atomicRun 2 [.rpc 0, .rpc 1]
        ⟨3, [.pending, .pending]⟩).threads.count .succeeded = 1 ∧
    (atomicRun 2 [.rpc 1, .rpc 0]
        ⟨3, [.pending, .pending]⟩).threads.count .succeeded = 1 ∧
    (atomicRun 2 [.rpc 0, .rpc 1] ⟨3, [.pending, .pending]⟩).balance = 1 := by
  refine ⟨by decide, by decide, by decide, by decide, by decide⟩

/-! ## C8: graph assembly (`services/graph.py`) -/

/-- One entity as produced by `services/nlp.py::extract_entities`. -/
structure Entity where
  id : String
  label : String
  type : String
  count : Nat
deriving Repr, DecidableEq

/-- One proposed relationship edge from the LLM. -/
structure GEdge where
  source : String
  target : String
  label : String
deriving Repr, DecidableEq

/-- One node of the returned graph. -/
structure GNode where
  id : String
  label : String
  type : String
  attributes : List (String × String)
deriving Repr, DecidableEq

/-- The parsed relationship payload of the LLM call in `build_graph`
(step 2): `edges`, `entity_attributes`, `summary`, `themes`. -/
structure LlmData where
  edges : List GEdge
  entityAttributes : List (String × List (String × String))
  summary : String
  themes : List String
deriving Repr, DecidableEq

/-- The value `build_graph` returns. -/
structure GraphResult where
  nodes : List GNode
  edges : List GEdge
  summary : String
  themes : List String
deriving Repr, DecidableEq

/-- Embeds `services/graph.py::_full_llm_graph`: the fallback used when spaCy
found no entities; the LLM response is returned *as parsed* (`parsed`
is the `json.loads` outcome, `none` meaning any parse failure).  No edge
validation happens on this path. -/
def full_llm_graph (parsed : Option GraphResult) : GraphResult :=
  match parsed with
  | some g => g
  | none => ⟨[], [], "Could not parse narrative.", []⟩

/-- Embeds `services/graph.py::build_graph`: `rawEntities` is the spaCy
extraction, `heuristicThemes` the keyword-frequency themes, `llmParsed`
the relationship call's JSON parse outcome (`none` = `JSONDecodeError`),
`fallbackParsed` the fallback call's parse outcome.  On the main path
edges are validated against the node id set; the fallback path returns
the LLM's graph unvalidated. -/
def build_graph (rawEntities : List Entity) (heuristicThemes : List String)
    (llmParsed : Option LlmData) (fallbackParsed : Option GraphResult) :
    GraphResult :=
  if rawEntities = [] then full_llm_graph fallbackParsed
  else
    let llm_data : LlmData :=
      match llmParsed with
      | some d => d
      | none => ⟨[], [], "", heuristicThemes⟩
    let nodes := rawEntities.map (fun e =>
      (⟨e.id, e.label, e.type, (llm_data.entityAttributes.lookup e.id).getD []⟩ : GNode))
    let node_ids := nodes.map (fun n => n.id)
    let valid_edges := llm_data.edges.filter
      (fun e => e.source ∈ node_ids ∧ e.target ∈ node_ids)
    let themes := if llm_data.themes = [] then heuristicThemes else llm_data.themes
    ⟨nodes, valid_edges, llm_data.summary, themes.take 6⟩

/-- C8 counterexample: when spaCy finds no entities, `build_graph` falls
back to `_full_llm_graph` and returns the LLM's parsed graph without edge
validation: an edge whose endpoints are in no node set is returned rather
than dropped. -/
theorem c8_counterexample :
    (build_graph [] [] none
        (some ⟨[], [⟨"a", "b", "Friend"⟩], "s", []⟩)).edges
      = [⟨"a", "b", "Friend"⟩] ∧
    (build_graph [] [] none
        (some ⟨[], [⟨"a", "b", "Friend"⟩], "s", []⟩)).nodes = [] := by
  exact ⟨rfl, rfl⟩

/-- C8 (amended): on the main path — whenever spaCy produced at least one
entity — every edge of the returned graph references node ids present in
the returned node set, and violating edges are dropped rather than
reported as an error; the zero-entity fallback path returns the LLM graph
as parsed, with no such guarantee. -/
theorem c8_edge_integrity (rawEntities : List Entity)
    (heuristicThemes : List String) (llmParsed : Option LlmData)
    (fallbackParsed : Option GraphResult) (hne : rawEntities ≠ []) :
    ∀ e ∈ (build_graph rawEntities heuristicThemes llmParsed fallbackParsed).edges,
      e.source ∈ (build_graph rawEntities heuristicThemes llmParsed
          fallbackParsed).nodes.map GNode.id ∧
      e.target ∈ (build_graph rawEntities heuristicThemes llmParsed
          fallbackParsed).nodes.map GNode.id := by
  intro e he
  simp only [build_graph, if_neg hne] at he ⊢
  have hmem := List.mem_filter.mp he
  have hcond := of_decide_eq_true hmem.2
  constructor
  · convert hcond.1 using 2
  · convert hcond.2 using 2

theorem c8_edge_integrity_witness :
    ([(⟨"alice", "Alice", "character", 1⟩ : Entity),
      ⟨"bob", "Bob", "character", 1⟩] ≠ []) ∧
    (build_graph
        [⟨"alice", "Alice", "character", 1⟩, ⟨"bob", "Bob", "character", 1⟩] []
        (some ⟨[⟨"alice", "bob", "Friend"⟩, ⟨"alice", "ghost", "Knows"⟩], [], "s", []⟩)
        none).edges = [⟨"alice", "bob", "Friend"⟩] ∧
    (∀ e ∈ (build_graph
        [⟨"alice", "Alice", "character", 1⟩, ⟨"bob", "Bob", "character", 1⟩] []
        (some ⟨[⟨"alice", "bob", "Friend"⟩, ⟨"alice", "ghost", "Knows"⟩], [], "s", []⟩)
        none).edges,
      e.source ∈ (build_graph
        [⟨"alice", "Alice", "character", 1⟩, ⟨"bob", "Bob", "character", 1⟩] []
        (some ⟨[⟨"alice", "bob", "Friend"⟩, ⟨"alice", "ghost", "Knows"⟩], [], "s", []⟩)
        none).nodes.map GNode.id ∧
      e.target ∈ (build_graph
        [⟨"alice", "Alice", "character", 1⟩, ⟨"bob", "Bob", "character", 1⟩] []
        (some ⟨[⟨"alice", "bob", "Friend"⟩, ⟨"alice", "ghost", "Knows"⟩], [], "s", []⟩)
        none).nodes.map GNode.id) := by
  refine ⟨by decide, by decide, ?_⟩
  exact c8_edge_integrity _ _ _ _ (by decide)

end NarrativeIQ
